import Mathlib

/-!
Verification development for the RediScan repository: a shallow embedding of
the value formatter (prettyPrintJSON), the list navigator (lindexHandler) and
the key discovery scanner (getAvailableLists), together with proofs of the
testable properties of the specification.

The JSON model follows the behaviour of the Go standard library functions
json.Unmarshal (into interface) and json.MarshalIndent with a two-space
indent, which is exactly how prettyPrintJSON uses them.  Two abstractions are
made, both noted where they occur: number literals are carried exactly as
scanned instead of being rounded through float64, and the apostrophes that
the Go error messages place around parameter names are elided.
-/

namespace RediScan

/-- A JSON value as produced by the Go decoder: null, booleans, numbers
(carried as their literal token, abstracting the float64 conversion),
strings, arrays, and objects.  Go decodes objects into a map whose marshal
order is sorted by key and where a later duplicate key wins; the embedding
keeps object fields as an association list that the parser normalises to
sorted-by-key order with duplicates resolved last-wins. -/
inductive JsonValue where
  | null : JsonValue
  | bool (b : Bool) : JsonValue
  | num (lit : String) : JsonValue
  | str (s : String) : JsonValue
  | arr (elems : List JsonValue) : JsonValue
  | obj (fields : List (String × JsonValue)) : JsonValue

/-- Two-space indentation repeated n times, as a character list. -/
def pad : Nat → List Char
  | 0 => []
  | n + 1 => ' ' :: ' ' :: pad n

/-- Lowercase hexadecimal digit for a value below 16. -/
def hexDigitChar (n : Nat) : Char :=
  if n < 10 then Char.ofNat (48 + n) else Char.ofNat (87 + n)

/-- The six-character escape \uXXXX that the Go encoder emits, lowercase hex. -/
def uEscape (n : Nat) : List Char :=
  ['\\', 'u', hexDigitChar (n / 4096 % 16), hexDigitChar (n / 256 % 16),
   hexDigitChar (n / 16 % 16), hexDigitChar (n % 16)]

/-- Per-character escaping of the Go JSON encoder with HTML escaping on, as
used by json.Marshal: quote and backslash get a backslash escape, newline,
carriage return and tab get their short escapes, other control characters
get \u00XX, the HTML-active characters get <, >, &, and the
line separators U+2028 and U+2029 get   and  . -/
def escChar (c : Char) : List Char :=
  if c = '\"' then ['\\', '\"']
  else if c = '\\' then ['\\', '\\']
  else if c = '\n' then ['\\', 'n']
  else if c = '\r' then ['\\', 'r']
  else if c = '\t' then ['\\', 't']
  else if c.toNat < 32 then uEscape c.toNat
  else if c = '<' ∨ c = '>' ∨ c = '&' then uEscape c.toNat
  else if c.toNat = 8232 ∨ c.toNat = 8233 then uEscape c.toNat
  else [c]

/-- Escape a whole string body, character by character. -/
def escBody : List Char → List Char
  | [] => []
  | c :: l => escChar c ++ escBody l

/-- A quoted JSON string literal for the string s. -/
def quoteStr (s : String) : List Char :=
  '\"' :: escBody s.data ++ ['\"']

mutual

/-- The output of json.MarshalIndent with empty prefix and two-space indent,
rendered at nesting depth ind, as a character list. -/
def printV (ind : Nat) (v : JsonValue) : List Char :=
  match v with
  | .null => 'n' :: ['u', 'l', 'l']
  | .bool true => 't' :: ['r', 'u', 'e']
  | .bool false => 'f' :: ['a', 'l', 's', 'e']
  | .num lit => lit.data
  | .str s => quoteStr s
  | .arr [] => ['[', ']']
  | .arr (e :: es) =>
      '[' :: '\n' :: pad (ind + 1) ++ printElems (ind + 1) e es ++
        '\n' :: pad ind ++ [']']
  | .obj [] => ['\x7b', '\x7d']
  | .obj (f :: fs) =>
      '\x7b' :: '\n' :: pad (ind + 1) ++ printFields (ind + 1) f fs ++
        '\n' :: pad ind ++ ['\x7d']
termination_by sizeOf v

/-- Comma separated array elements, each on its own indented line. -/
def printElems (ind : Nat) (e : JsonValue) (es : List JsonValue) : List Char :=
  match es with
  | [] => printV ind e
  | e2 :: es2 => printV ind e ++ ',' :: '\n' :: pad ind ++ printElems ind e2 es2
termination_by 1 + sizeOf e + sizeOf es

/-- Comma separated object members, each on its own indented line, with the
colon followed by one space as MarshalIndent produces. -/
def printFields (ind : Nat) (f : String × JsonValue)
    (fs : List (String × JsonValue)) : List Char :=
  match fs with
  | [] => quoteStr f.1 ++ ':' :: ' ' :: printV ind f.2
  | f2 :: fs2 => quoteStr f.1 ++ ':' :: ' ' :: printV ind f.2 ++
      ',' :: '\n' :: pad ind ++ printFields ind f2 fs2
termination_by 1 + sizeOf f + sizeOf fs
decreasing_by all_goals (obtain ⟨k0, v0⟩ := f; simp_wf <;> omega)

end

/-- The string json.MarshalIndent(v, two-space indent) produces. -/
def marshalIndent (v : JsonValue) : String :=
  String.mk (printV 0 v)

/-- JSON insignificant whitespace: space, tab, newline, carriage return. -/
def isWS (c : Char) : Bool :=
  c = ' ' ∨ c = '\t' ∨ c = '\n' ∨ c = '\r'

/-- Drop leading insignificant whitespace. -/
def skipWS : List Char → List Char
  | [] => []
  | c :: cs => if isWS c then skipWS cs else c :: cs

/-- Numeric value of one hexadecimal digit, either case. -/
def hexVal (c : Char) : Option Nat :=
  if '0' ≤ c ∧ c ≤ '9' then some (c.toNat - 48)
  else if 'a' ≤ c ∧ c ≤ 'f' then some (c.toNat - 87)
  else if 'A' ≤ c ∧ c ≤ 'F' then some (c.toNat - 55)
  else none

/-- Four hexadecimal digits, most significant first. -/
def parseHex4 : List Char → Option (Nat × List Char)
  | a :: b :: c :: d :: rest =>
      match hexVal a, hexVal b, hexVal c, hexVal d with
      | some x, some y, some z, some w => some (x * 4096 + y * 256 + z * 16 + w, rest)
      | _, _, _, _ => none
  | _ => none

/-- The single-character escapes the Go decoder accepts after a backslash. -/
def escCode (e : Char) : Option Char :=
  if e = '\"' then some '\"'
  else if e = '\\' then some '\\'
  else if e = '/' then some '/'
  else if e = 'b' then some (Char.ofNat 8)
  else if e = 'f' then some (Char.ofNat 12)
  else if e = 'n' then some '\n'
  else if e = 'r' then some '\r'
  else if e = 't' then some '\t'
  else none

/-- Resolve one \uXXXX code unit against what follows, as the Go decoder
does: a high surrogate joined by an immediately following low surrogate
escape yields the combined character and consumes both escapes; any
unpaired surrogate yields U+FFFD and consumes only the first escape; any
other value is the character itself. -/
def decodeU (n : Nat) (r2 : List Char) : Char × List Char :=
  if 55296 ≤ n ∧ n < 56320 then
    match r2 with
    | '\\' :: 'u' :: r3 =>
      match parseHex4 r3 with
      | some (m, r4) =>
        if 56320 ≤ m ∧ m < 57344 then
          (Char.ofNat (65536 + (n - 55296) * 1024 + (m - 56320)), r4)
        else (Char.ofNat 65533, r2)
      | none => (Char.ofNat 65533, r2)
    | _ => (Char.ofNat 65533, r2)
  else if 56320 ≤ n ∧ n < 57344 then (Char.ofNat 65533, r2)
  else (Char.ofNat n, r2)

/-- Decode the body of a JSON string literal after its opening quote,
following the Go decoder: raw characters must not be control characters,
simple escapes map through escCode, and \uXXXX escapes go through decodeU.
Returns the decoded characters and the input after the closing quote. -/
def parseStrChars (fuel : Nat) (cs : List Char) : Option (List Char × List Char) :=
  match fuel with
  | 0 => none
  | f + 1 =>
    match cs with
    | [] => none
    | c :: rest =>
      if c = '\"' then some ([], rest)
      else if c = '\\' then
        match rest with
        | [] => none
        | e :: r1 =>
          if e = 'u' then
            match parseHex4 r1 with
            | none => none
            | some (n, r2) =>
              (parseStrChars f (decodeU n r2).2).map
                (fun p => ((decodeU n r2).1 :: p.1, p.2))
          else
            match escCode e with
            | some c2 => (parseStrChars f r1).map (fun p => (c2 :: p.1, p.2))
            | none => none
      else if c.toNat < 32 then none
      else (parseStrChars f rest).map (fun p => (c :: p.1, p.2))

/-- Longest prefix of decimal digits. -/
def scanDigits : List Char → List Char × List Char
  | [] => ([], [])
  | c :: cs =>
      if c.isDigit then
        let p := scanDigits cs
        (c :: p.1, p.2)
      else ([], c :: cs)

/-- Integer part of a JSON number: a single zero, or a nonzero digit followed
by any digits.  A leading zero may not be followed by more digits. -/
def scanIntPart : List Char → Option (List Char × List Char)
  | [] => none
  | c :: cs =>
      if c = '0' then some (['0'], cs)
      else if c.isDigit then
        let p := scanDigits cs
        some (c :: p.1, p.2)
      else none

/-- Optional fraction part: a dot must be followed by at least one digit. -/
def scanFracPart : List Char → Option (List Char × List Char)
  | [] => some ([], [])
  | c :: cs =>
      if c = '.' then
        let p := scanDigits cs
        if p.1 = [] then none else some ('.' :: p.1, p.2)
      else some ([], c :: cs)

/-- Optional exponent part: e or E, an optional sign, at least one digit. -/
def scanExpPart : List Char → Option (List Char × List Char)
  | [] => some ([], [])
  | c :: cs =>
      if c = 'e' ∨ c = 'E' then
        match cs with
        | [] => none
        | s :: cs2 =>
          if s = '+' ∨ s = '-' then
            let p := scanDigits cs2
            if p.1 = [] then none else some (c :: s :: p.1, p.2)
          else
            let p := scanDigits cs
            if p.1 = [] then none else some (c :: p.1, p.2)
      else some ([], c :: cs)

/-- Scan one JSON number token: optional minus, integer part, optional
fraction, optional exponent.  Returns the token and the rest. -/
def scanNumber (cs : List Char) : Option (List Char × List Char) :=
  let sg : List Char × List Char :=
    match cs with
    | c :: r => if c = '-' then (['-'], r) else ([], c :: r)
    | [] => ([], [])
  match scanIntPart sg.2 with
  | none => none
  | some (ip, cs2) =>
    match scanFracPart cs2 with
    | none => none
    | some (fp, cs3) =>
      match scanExpPart cs3 with
      | none => none
      | some (ep, cs4) => some (sg.1 ++ ip ++ fp ++ ep, cs4)

/-- Insert a field into a key-sorted association list, replacing an equal
key: this realises the combination of the Go map semantics (a later
duplicate key wins) with the sorted key order of map marshalling. -/
def insertField (k : String) (v : JsonValue) :
    List (String × JsonValue) → List (String × JsonValue)
  | [] => [(k, v)]
  | (k2, v2) :: rest =>
      if k < k2 then (k, v) :: (k2, v2) :: rest
      else if k = k2 then (k, v) :: rest
      else (k2, v2) :: insertField k v rest

/-- Normalise parsed object members into the Go map representation: sorted
by key, later duplicates winning. -/
def normalizeFields (fs : List (String × JsonValue)) : List (String × JsonValue) :=
  fs.foldl (fun acc f => insertField f.1 f.2 acc) []

mutual

/-- Parse one JSON value after skipping leading whitespace, following the
grammar the Go scanner accepts.  The fuel argument bounds the recursion
depth; the top level supplies more than any input can consume. -/
def parseValue (fuel : Nat) (cs : List Char) : Option (JsonValue × List Char) :=
  match fuel with
  | 0 => none
  | f + 1 =>
    match skipWS cs with
    | [] => none
    | c :: r =>
      if c = 'n' then
        match r with
        | 'u' :: 'l' :: 'l' :: rest => some (.null, rest)
        | _ => none
      else if c = 't' then
        match r with
        | 'r' :: 'u' :: 'e' :: rest => some (.bool true, rest)
        | _ => none
      else if c = 'f' then
        match r with
        | 'a' :: 'l' :: 's' :: 'e' :: rest => some (.bool false, rest)
        | _ => none
      else if c = '\"' then
        (parseStrChars f r).map (fun p => (.str (String.mk p.1), p.2))
      else if c = '[' then
        match skipWS r with
        | [] => none
        | d :: r2 =>
          if d = ']' then some (.arr [], r2)
          else
            match parseElems f (d :: r2) with
            | some (vs, r3) => some (.arr vs, r3)
            | none => none
      else if c = '\x7b' then
        match skipWS r with
        | [] => none
        | d :: r2 =>
          if d = '\x7d' then some (.obj [], r2)
          else
            match parseFields f (d :: r2) with
            | some (fs, r3) => some (.obj (normalizeFields fs), r3)
            | none => none
      else if c = '-' ∨ c.isDigit then
        match scanNumber (c :: r) with
        | some (t, r2) => some (.num (String.mk t), r2)
        | none => none
      else none

/-- Parse the elements of a nonempty array body up to and including the
closing bracket. -/
def parseElems (fuel : Nat) (cs : List Char) : Option (List JsonValue × List Char) :=
  match fuel with
  | 0 => none
  | f + 1 =>
    match parseValue f cs with
    | none => none
    | some (v, rest) =>
      match skipWS rest with
      | ',' :: r =>
        match parseElems f r with
        | some (vs, r2) => some (v :: vs, r2)
        | none => none
      | ']' :: r => some ([v], r)
      | _ => none

/-- Parse the members of a nonempty object body up to and including the
closing brace, in source order. -/
def parseFields (fuel : Nat) (cs : List Char) :
    Option (List (String × JsonValue) × List Char) :=
  match fuel with
  | 0 => none
  | f + 1 =>
    match skipWS cs with
    | '\"' :: rest =>
      match parseStrChars f rest with
      | none => none
      | some (k, r1) =>
        match skipWS r1 with
        | ':' :: r2 =>
          match parseValue f r2 with
          | none => none
          | some (v, r3) =>
            match skipWS r3 with
            | ',' :: r4 =>
              match parseFields f r4 with
              | some (fs, r5) => some ((String.mk k, v) :: fs, r5)
              | none => none
            | '\x7d' :: r4 => some ([(String.mk k, v)], r4)
            | _ => none
        | _ => none
    | _ => none

end

/-- The result of json.Unmarshal of a whole input string into interface:
one value surrounded only by whitespace, or failure. -/
def jsonParse (s : String) : Option JsonValue :=
  match parseValue (s.data.length * 4 + 8) s.data with
  | some (v, rest) => if skipWS rest = [] then some v else none
  | none => none

/-- prettyPrintJSON from the source: try to decode the value as JSON; on
success re-encode it with two-space indentation, otherwise return the input
unchanged.  The MarshalIndent branch of the source cannot fail on a value
produced by Unmarshal, so the embedding of the encoder is total. -/
def prettyPrintJSON (value : String) : String :=
  match jsonParse value with
  | none => value
  | some v => marshalIndent v

/-!
The list navigator.  Both variants of lindexHandler are embedded: the
preload variant (the navigator the specification describes in section 4.2,
with the default-to-newest index and the preload strategy decision) and the
basic variant from main.go (explicit index required, single fetch only).
The store client is an oracle recording the replies of the one TYPE, LLEN,
LRANGE or LINDEX round trip each handler may make; error strings stand for
the transport failures of the redis client.  Messages elide the apostrophes
the Go code places around names.
-/

/-- The two query parameters of a navigation request; Go returns the empty
string for an absent parameter, so an empty indexStr means none given. -/
structure NavQuery where
  key : String
  indexStr : String

/-- Replies of the store for the calls a navigation request can make. -/
structure NavOracle where
  typeReply : Except String String
  llenReply : Except String Int
  lrangeReply : Except String (List String)
  lindexReply : Int → Except String String

/-- The observable outcome of a navigation request: a not-found page, an
error page, or a rendered result with or without the preloaded values. -/
inductive NavResult where
  | notFound (msg : String) : NavResult
  | storeError (msg : String) : NavResult
  | preloaded (key : String) (index llen : Int) (values : List String) : NavResult
  | single (key : String) (index llen : Int) (value : String) : NavResult
deriving DecidableEq

/-- The validation and fetch steps of a navigation request, in the order
they are performed, used to state the ordering property. -/
inductive NavStep where
  | typeCheck : NavStep
  | lenCheck : NavStep
  | indexResolve : NavStep
  | boundsCheck : NavStep
  | fetchRange : NavStep
  | fetchSingle : NavStep
deriving DecidableEq

/-- strconv.ParseInt with base 10 and bit size 64: an optional sign followed
by at least one digit, rejecting any other character and any value outside
the signed 64-bit range. -/
def parseInt64 (s : String) : Option Int :=
  match s.data with
  | [] => none
  | c :: cs =>
    let body : Bool × List Char :=
      if c = '-' then (true, cs)
      else if c = '+' then (false, cs)
      else (false, c :: cs)
    if body.2 = [] ∨ ¬ body.2.all Char.isDigit then none
    else
      let n : Nat := body.2.foldl (fun a d => a * 10 + (d.toNat - 48)) 0
      if body.1 then
        if n ≤ 2 ^ 63 then some (-(n : Int)) else none
      else
        if n < 2 ^ 63 then some (n : Int) else none

/-- maxPreloadSize from the source, as an integer for the int64 comparison:
lists of at most this length are preloaded whole. -/
def maxPreloadSize : Int := 1000

/-- Index resolution of the preload variant: with no index parameter the
index defaults to llen - 1, the newest element; otherwise the parameter
must parse as an integer. -/
def resolveIndex (indexStr : String) (llen : Int) : Option Int :=
  if indexStr = "" then some (llen - 1) else parseInt64 indexStr

/-- The preload variant of lindexHandler, returning its outcome together
with the trace of validation and fetch steps it performed: missing-key
check, TYPE check, LLEN check with the empty-list rejection, index
resolution, bounds check, then either the LRANGE preload with every value
pretty-printed or the single LINDEX fetch, each step an early exit. -/
def lindexHandler (q : NavQuery) (o : NavOracle) : NavResult × List NavStep :=
  if q.key = "" then (.notFound "Missing key parameter", [])
  else
    match o.typeReply with
    | .error e => (.storeError ("Error checking key: " ++ e), [.typeCheck])
    | .ok keyType =>
      if keyType = "none" then
        (.notFound ("Key " ++ q.key ++ " does not exist"), [.typeCheck])
      else if keyType ≠ "list" then
        (.notFound ("Key " ++ q.key ++ " is not a list (type: " ++ keyType ++ ")"),
          [.typeCheck])
      else
        match o.llenReply with
        | .error e =>
            (.storeError ("Error getting list length: " ++ e), [.typeCheck, .lenCheck])
        | .ok llen =>
          if llen = 0 then
            (.notFound ("List " ++ q.key ++ " is empty"), [.typeCheck, .lenCheck])
          else
            match resolveIndex q.indexStr llen with
            | none =>
                (.notFound "Invalid index parameter",
                  [.typeCheck, .lenCheck, .indexResolve])
            | some index =>
              if index < 0 ∨ llen ≤ index then
                (.notFound ("Index " ++ toString index ++
                    " out of bounds (list length: " ++ toString llen ++ ")"),
                  [.typeCheck, .lenCheck, .indexResolve, .boundsCheck])
              else if llen ≤ maxPreloadSize then
                match o.lrangeReply with
                | .error e =>
                    (.storeError ("Error getting list elements: " ++ e),
                      [.typeCheck, .lenCheck, .indexResolve, .boundsCheck, .fetchRange])
                | .ok allValues =>
                    (.preloaded q.key index llen (allValues.map prettyPrintJSON),
                      [.typeCheck, .lenCheck, .indexResolve, .boundsCheck, .fetchRange])
              else
                match o.lindexReply index with
                | .error e =>
                    (.storeError ("Error getting element: " ++ e),
                      [.typeCheck, .lenCheck, .indexResolve, .boundsCheck, .fetchSingle])
                | .ok value =>
                    (.single q.key index llen (prettyPrintJSON value),
                      [.typeCheck, .lenCheck, .indexResolve, .boundsCheck, .fetchSingle])

/-- The basic variant of lindexHandler from main.go, with its trace: the
index parameter is parsed before any store call, there is no default
index and no preload, and the element is always fetched with LINDEX. -/
def lindexHandlerBasic (q : NavQuery) (o : NavOracle) : NavResult × List NavStep :=
  if q.key = "" then (.notFound "Missing key parameter", [])
  else
    match parseInt64 q.indexStr with
    | none => (.notFound "Invalid index parameter", [.indexResolve])
    | some index =>
      match o.typeReply with
      | .error e =>
          (.storeError ("Error checking key: " ++ e), [.indexResolve, .typeCheck])
      | .ok keyType =>
        if keyType = "none" then
          (.notFound ("Key " ++ q.key ++ " does not exist"), [.indexResolve, .typeCheck])
        else if keyType ≠ "list" then
          (.notFound ("Key " ++ q.key ++ " is not a list (type: " ++ keyType ++ ")"),
            [.indexResolve, .typeCheck])
        else
          match o.llenReply with
          | .error e =>
              (.storeError ("Error getting list length: " ++ e),
                [.indexResolve, .typeCheck, .lenCheck])
          | .ok llen =>
            if llen = 0 then
              (.notFound ("List " ++ q.key ++ " is empty"),
                [.indexResolve, .typeCheck, .lenCheck])
            else if index < 0 ∨ llen ≤ index then
              (.notFound ("Index " ++ toString index ++
                  " out of bounds (list length: " ++ toString llen ++ ")"),
                [.indexResolve, .typeCheck, .lenCheck, .boundsCheck])
            else
              match o.lindexReply index with
              | .error e =>
                  (.storeError ("Error getting element: " ++ e),
                    [.indexResolve, .typeCheck, .lenCheck, .boundsCheck, .fetchSingle])
              | .ok value =>
                  (.single q.key index llen (prettyPrintJSON value),
                    [.indexResolve, .typeCheck, .lenCheck, .boundsCheck, .fetchSingle])

/-- Whether a navigation outcome is the not-found page. -/
def NavResult.isNotFound : NavResult → Bool
  | .notFound _ => true
  | _ => false

/-!
The key discovery scanner, from the preload variant: cursor batches of SCAN
replies, a pipelined TYPE check per batch, a pipelined LLEN check for the
keys of list type, and an early return once maxLists summaries have been
accumulated.  The oracle records the reply sequence of SCAN and, as
functions, whether each pipeline Exec fails and the per-key results inside
a pipeline.
-/

/-- One list summary of the index page: key name and size. -/
structure ListInfo where
  name : String
  size : Int
deriving DecidableEq

/-- One SCAN round trip: either a transport failure or a batch of keys with
the follow-up cursor, where cursor zero means the scan cycle is complete. -/
inductive ScanReply where
  | fail (msg : String) : ScanReply
  | batch (keys : List String) (nextCursor : Nat) : ScanReply

/-- The pipelined replies of the store for type and length checks. -/
structure KeyOracle where
  typeExecFail : List String → Bool
  typeOf : String → Except String String
  llenExecFail : List String → Bool
  llenOf : String → Except String Int

/-- Whether a pipelined TYPE reply identifies a list key. -/
def isListType : Except String String → Bool
  | .ok t => t = "list"
  | .error _ => false

/-- Append the sizes of the confirmed list keys one by one, skipping keys
whose LLEN reply failed, and report, with the flag, the immediate return
the source performs as soon as maxLists summaries are accumulated. -/
def collectSizes (maxLists : Nat) (llenOf : String → Except String Int)
    (acc : List ListInfo) : List String → List ListInfo × Bool
  | [] => (acc, false)
  | k :: ks =>
    match llenOf k with
    | .error _ => collectSizes maxLists llenOf acc ks
    | .ok sz =>
      if maxLists ≤ (acc ++ [ListInfo.mk k sz]).length
      then (acc ++ [ListInfo.mk k sz], true)
      else collectSizes maxLists llenOf (acc ++ [ListInfo.mk k sz]) ks

/-- Process one scan batch: an empty batch is skipped; a failing TYPE
pipeline skips the batch; otherwise the keys of list type are kept and, when
there are any and the LLEN pipeline succeeds, their sizes are collected. -/
def processBatch (ko : KeyOracle) (maxLists : Nat) (acc : List ListInfo)
    (keys : List String) : List ListInfo × Bool :=
  if keys.isEmpty then (acc, false)
  else if ko.typeExecFail keys then (acc, false)
  else if (keys.filter (fun k => isListType (ko.typeOf k))).isEmpty then (acc, false)
  else if ko.llenExecFail (keys.filter (fun k => isListType (ko.typeOf k))) then (acc, false)
  else collectSizes maxLists ko.llenOf acc (keys.filter (fun k => isListType (ko.typeOf k)))

/-- The scan loop of getAvailableLists: each iteration consumes one SCAN
reply; a SCAN failure returns the error with no results, exactly as the
source returns nil and the error; reaching maxLists returns at once; a zero
cursor ends the cycle.  An exhausted reply list models the end of any
finite execution. -/
def discoverLoop (ko : KeyOracle) (maxLists : Nat) :
    List ScanReply → List ListInfo → Except String (List ListInfo)
  | [], acc => .ok acc
  | r :: rs, acc =>
    match r with
    | .fail msg => .error msg
    | .batch keys nextCursor =>
      match processBatch ko maxLists acc keys with
      | (acc2, true) => .ok acc2
      | (acc2, false) =>
        if nextCursor = 0 then .ok acc2 else discoverLoop ko maxLists rs acc2

/-- getAvailableLists from the preload variant: run the scan loop from an
empty accumulator over the SCAN replies of this execution. -/
def getAvailableLists (ko : KeyOracle) (scans : List ScanReply)
    (maxLists : Nat) : Except String (List ListInfo) :=
  discoverLoop ko maxLists scans []

/-- What the index page renders: the handler logs and swallows a discovery
error and continues with the nil slice, so an error shows as no lists. -/
def indexPageLists (ko : KeyOracle) (scans : List ScanReply)
    (maxLists : Nat) : List ListInfo :=
  match getAvailableLists ko scans maxLists with
  | .ok l => l
  | .error _ => []

/-- parseInt64 rejects the empty string, so a successful parse means an
index parameter was supplied. -/
theorem parseInt64_empty : parseInt64 "" = none := rfl

/-- Once the key is present, the type is list, the length is known and the
index resolved, the preload variant is determined by the bounds check, the
threshold comparison and the fetch reply. -/
theorem lindexHandler_valid (q : NavQuery) (o : NavOracle) (L i : Int)
    (hk : q.key ≠ "") (ht : o.typeReply = .ok "list") (hl : o.llenReply = .ok L)
    (hL0 : L ≠ 0) (hres : resolveIndex q.indexStr L = some i) :
    lindexHandler q o =
      if i < 0 ∨ L ≤ i then
        (.notFound ("Index " ++ toString i ++ " out of bounds (list length: " ++
            toString L ++ ")"),
          [.typeCheck, .lenCheck, .indexResolve, .boundsCheck])
      else if L ≤ maxPreloadSize then
        match o.lrangeReply with
        | .error e =>
            (.storeError ("Error getting list elements: " ++ e),
              [.typeCheck, .lenCheck, .indexResolve, .boundsCheck, .fetchRange])
        | .ok allValues =>
            (.preloaded q.key i L (allValues.map prettyPrintJSON),
              [.typeCheck, .lenCheck, .indexResolve, .boundsCheck, .fetchRange])
      else
        match o.lindexReply i with
        | .error e =>
            (.storeError ("Error getting element: " ++ e),
              [.typeCheck, .lenCheck, .indexResolve, .boundsCheck, .fetchSingle])
        | .ok value =>
            (.single q.key i L (prettyPrintJSON value),
              [.typeCheck, .lenCheck, .indexResolve, .boundsCheck, .fetchSingle]) := by
  unfold lindexHandler
  rw [if_neg hk, ht, hl]
  simp [hL0, hres]

/-- The same characterisation for the basic variant from main.go. -/
theorem lindexHandlerBasic_valid (q : NavQuery) (o : NavOracle) (L i : Int)
    (hk : q.key ≠ "") (ht : o.typeReply = .ok "list") (hl : o.llenReply = .ok L)
    (hL0 : L ≠ 0) (hi : parseInt64 q.indexStr = some i) :
    lindexHandlerBasic q o =
      if i < 0 ∨ L ≤ i then
        (.notFound ("Index " ++ toString i ++ " out of bounds (list length: " ++
            toString L ++ ")"),
          [.indexResolve, .typeCheck, .lenCheck, .boundsCheck])
      else
        match o.lindexReply i with
        | .error e =>
            (.storeError ("Error getting element: " ++ e),
              [.indexResolve, .typeCheck, .lenCheck, .boundsCheck, .fetchSingle])
        | .ok value =>
            (.single q.key i L (prettyPrintJSON value),
              [.indexResolve, .typeCheck, .lenCheck, .boundsCheck, .fetchSingle]) := by
  unfold lindexHandlerBasic
  rw [if_neg hk, hi, ht, hl]
  simp [hL0]

/-- A concrete store oracle for a list key of length three. -/
def oracleList3 : NavOracle :=
  ⟨.ok "list", .ok 3, .ok ["c", "b", "a"], fun _ => .ok "x"⟩

/-- A concrete store oracle for a list key of length exactly one thousand,
the preload threshold. -/
def oracleList1000 : NavOracle :=
  ⟨.ok "list", .ok 1000, .ok ["c", "b", "a"], fun _ => .ok "x"⟩

/-- C1: for every observed list length L that is at least zero and every
requested index that parses as the integer i, both variants of navigate
answer with the not-found page exactly when i is below zero or at least L;
an in-range index on a non-empty list never yields not-found. -/
theorem claim1_notFound_iff_out_of_bounds (q : NavQuery) (o : NavOracle)
    (L i : Int) (hk : q.key ≠ "") (ht : o.typeReply = .ok "list")
    (hl : o.llenReply = .ok L) (hL : 0 ≤ L)
    (hi : parseInt64 q.indexStr = some i) :
    ((lindexHandler q o).1.isNotFound = true ↔ (i < 0 ∨ L ≤ i)) ∧
    ((lindexHandlerBasic q o).1.isNotFound = true ↔ (i < 0 ∨ L ≤ i)) := by
  by_cases hL0 : L = 0
  · subst hL0
    unfold lindexHandler lindexHandlerBasic
    rw [ht, hl, hi]
    simp only [if_neg hk]
    constructor <;> (simp [NavResult.isNotFound]; omega)
  · have hne : q.indexStr ≠ "" := by
      intro h
      rw [h, parseInt64_empty] at hi
      cases hi
    have hres : resolveIndex q.indexStr L = some i := by
      rw [resolveIndex, if_neg hne, hi]
    rw [lindexHandler_valid q o L i hk ht hl hL0 hres,
      lindexHandlerBasic_valid q o L i hk ht hl hL0 hi]
    by_cases hb : i < 0 ∨ L ≤ i
    · simp [hb, NavResult.isNotFound]
    · rw [if_neg hb, if_neg hb]
      constructor
      · by_cases hpre : L ≤ maxPreloadSize
        · rw [if_pos hpre]
          rcases o.lrangeReply with e | vs <;> simp [NavResult.isNotFound, hb]
        · rw [if_neg hpre]
          rcases o.lindexReply i with e | v <;> simp [NavResult.isNotFound, hb]
      · rcases o.lindexReply i with e | v <;> simp [NavResult.isNotFound, hb]

/-- Witness for C1 at index five on a list of length three. -/
theorem claim1_witness :
    ((lindexHandler ⟨"mylist", "5"⟩ oracleList3).1.isNotFound = true ↔
      ((5 : Int) < 0 ∨ (3 : Int) ≤ 5)) ∧
    ((lindexHandlerBasic ⟨"mylist", "5"⟩ oracleList3).1.isNotFound = true ↔
      ((5 : Int) < 0 ∨ (3 : Int) ≤ 5)) :=
  claim1_notFound_iff_out_of_bounds ⟨"mylist", "5"⟩ oracleList3 3 5
    (by decide) rfl rfl (by decide) rfl

/-- C2: once a request on a non-empty list passes validation with an
in-range index, the preload variant takes the bulk LRANGE strategy exactly
when the length is at most maxPreloadSize, including at the threshold, and
the single LINDEX strategy exactly when the length exceeds it; on a
successful fetch the outcome carries all formatted values respectively the
one formatted value. -/
theorem claim2_preload_strategy (q : NavQuery) (o : NavOracle) (L i : Int)
    (hk : q.key ≠ "") (ht : o.typeReply = .ok "list")
    (hl : o.llenReply = .ok L) (hres : resolveIndex q.indexStr L = some i)
    (hb : ¬(i < 0 ∨ L ≤ i)) :
    ((NavStep.fetchRange ∈ (lindexHandler q o).2) ↔ L ≤ maxPreloadSize) ∧
    ((NavStep.fetchSingle ∈ (lindexHandler q o).2) ↔ maxPreloadSize < L) ∧
    (∀ vs, L ≤ maxPreloadSize → o.lrangeReply = .ok vs →
      (lindexHandler q o).1 = .preloaded q.key i L (vs.map prettyPrintJSON)) ∧
    (∀ v, maxPreloadSize < L → o.lindexReply i = .ok v →
      (lindexHandler q o).1 = .single q.key i L (prettyPrintJSON v)) := by
  have hL0 : L ≠ 0 := by
    push_neg at hb
    omega
  rw [lindexHandler_valid q o L i hk ht hl hL0 hres, if_neg hb]
  by_cases hpre : L ≤ maxPreloadSize
  · rw [if_pos hpre]
    refine ⟨?_, ?_, ?_, ?_⟩
    · rcases o.lrangeReply with e | vs <;> simp [hpre]
    · rcases o.lrangeReply with e | vs <;> (simp; omega)
    · intro vs _ hr
      rw [hr]
    · intro v hgt _
      omega
  · rw [if_neg hpre]
    refine ⟨?_, ?_, ?_, ?_⟩
    · rcases o.lindexReply i with e | v <;> (simp; omega)
    · rcases o.lindexReply i with e | v <;> (simp; omega)
    · intro vs hle _
      omega
    · intro v _ hr
      rw [hr]

/-- Witness for C2 at the boundary: a list of length exactly one thousand
is preloaded. -/
theorem claim2_witness :
    ((NavStep.fetchRange ∈ (lindexHandler ⟨"k", "0"⟩ oracleList1000).2) ↔
      (1000 : Int) ≤ maxPreloadSize) ∧
    ((NavStep.fetchSingle ∈ (lindexHandler ⟨"k", "0"⟩ oracleList1000).2) ↔
      maxPreloadSize < (1000 : Int)) ∧
    (∀ vs, (1000 : Int) ≤ maxPreloadSize →
      (oracleList1000).lrangeReply = .ok vs →
      (lindexHandler ⟨"k", "0"⟩ oracleList1000).1 =
        .preloaded "k" 0 1000 (vs.map prettyPrintJSON)) ∧
    (∀ v, maxPreloadSize < (1000 : Int) →
      (oracleList1000).lindexReply 0 = .ok v →
      (lindexHandler ⟨"k", "0"⟩ oracleList1000).1 =
        .single "k" 0 1000 (prettyPrintJSON v)) :=
  claim2_preload_strategy ⟨"k", "0"⟩ oracleList1000 1000 0
    (by decide) rfl rfl rfl (by decide)

/-- C3 as stated is false for the basic variant from main.go: with the
store reporting a list of length three, a request with no index parameter
is rejected as an invalid index instead of resolving to index two. -/
theorem claim3_counterexample :
    (lindexHandlerBasic ⟨"mylist", ""⟩ oracleList3).1 =
      .notFound "Invalid index parameter" := rfl

/-- C3 amended: in the preload variant a request with no index parameter on
a list of positive observed length L resolves to index L - 1, the newest
element, never to the not-found page and never to index zero; the basic
variant instead rejects the missing index as invalid. -/
theorem claim3_default_index_newest (q : NavQuery) (o : NavOracle) (L : Int)
    (hk : q.key ≠ "") (hidx : q.indexStr = "") (ht : o.typeReply = .ok "list")
    (hl : o.llenReply = .ok L) (hL : 0 < L) :
    ((lindexHandler q o).1.isNotFound = false) ∧
    (∀ vs, L ≤ maxPreloadSize → o.lrangeReply = .ok vs →
      (lindexHandler q o).1 = .preloaded q.key (L - 1) L (vs.map prettyPrintJSON)) ∧
    (∀ v, maxPreloadSize < L → o.lindexReply (L - 1) = .ok v →
      (lindexHandler q o).1 = .single q.key (L - 1) L (prettyPrintJSON v)) ∧
    ((lindexHandlerBasic q o).1 = .notFound "Invalid index parameter") := by
  have hL0 : L ≠ 0 := by omega
  have hres : resolveIndex q.indexStr L = some (L - 1) := by
    rw [resolveIndex, if_pos hidx]
  have hb : ¬(L - 1 < 0 ∨ L ≤ L - 1) := by omega
  rw [lindexHandler_valid q o L (L - 1) hk ht hl hL0 hres, if_neg hb]
  refine ⟨?_, ?_, ?_, ?_⟩
  · by_cases hpre : L ≤ maxPreloadSize
    · rw [if_pos hpre]
      rcases o.lrangeReply with e | vs <;> simp [NavResult.isNotFound]
    · rw [if_neg hpre]
      rcases o.lindexReply (L - 1) with e | v <;> simp [NavResult.isNotFound]
  · intro vs hpre hr
    rw [if_pos hpre, hr]
  · intro v hgt hr
    rw [if_neg (by omega : ¬ L ≤ maxPreloadSize), hr]
  · unfold lindexHandlerBasic
    rw [if_neg hk, hidx, parseInt64_empty]

/-- Witness for the amended C3 on a list of length three with no index
parameter supplied. -/
theorem claim3_witness :
    ((lindexHandler ⟨"mylist", ""⟩ oracleList3).1.isNotFound = false) ∧
    (∀ vs, (3 : Int) ≤ maxPreloadSize → (oracleList3).lrangeReply = .ok vs →
      (lindexHandler ⟨"mylist", ""⟩ oracleList3).1 =
        .preloaded "mylist" (3 - 1) 3 (vs.map prettyPrintJSON)) ∧
    (∀ v, maxPreloadSize < (3 : Int) → (oracleList3).lindexReply (3 - 1) = .ok v →
      (lindexHandler ⟨"mylist", ""⟩ oracleList3).1 =
        .single "mylist" (3 - 1) 3 (prettyPrintJSON v)) ∧
    ((lindexHandlerBasic ⟨"mylist", ""⟩ oracleList3).1 =
      .notFound "Invalid index parameter") :=
  claim3_default_index_newest ⟨"mylist", ""⟩ oracleList3 3
    (by decide) rfl rfl rfl (by decide)

/-- C8 as stated is false for the basic variant from main.go: on an
unparsable index parameter the invalid-index failure is reported before any
store call, so the trace holds the index resolution step and no type or
length check. -/
theorem claim8_counterexample :
    lindexHandlerBasic ⟨"mylist", "notanumber"⟩ oracleList3 =
      (.notFound "Invalid index parameter", [NavStep.indexResolve]) := rfl

/-- C8 amended: the preload variant performs its steps strictly in the
order type check, length check, index resolution, bounds check, fetch, each
trace a prefix of that order; the basic variant parses the index first and
then follows type check, length check, bounds check, fetch.  In both, no
fetch is issued before every validation step has passed. -/
theorem claim8_step_order (q : NavQuery) (o : NavOracle) :
    (∃ n, (lindexHandler q o).2 =
        ([.typeCheck, .lenCheck, .indexResolve, .boundsCheck, .fetchRange] :
          List NavStep).take n ∨
      (lindexHandler q o).2 =
        ([.typeCheck, .lenCheck, .indexResolve, .boundsCheck, .fetchSingle] :
          List NavStep).take n) ∧
    (∃ m, (lindexHandlerBasic q o).2 =
        ([.indexResolve, .typeCheck, .lenCheck, .boundsCheck, .fetchSingle] :
          List NavStep).take m) := by
  constructor
  · unfold lindexHandler
    by_cases hk : q.key = ""
    · rw [if_pos hk]
      exact ⟨0, Or.inl rfl⟩
    · rw [if_neg hk]
      rcases o.typeReply with e | t
      · exact ⟨1, Or.inl rfl⟩
      · by_cases h1 : t = "none"
        · simp only [h1, if_pos]
          exact ⟨1, Or.inl rfl⟩
        · by_cases h2 : t = "list"
          · simp only [h1, h2, if_neg, if_pos, ne_eq, not_true_eq_false,
              ite_false, ite_true, not_false_eq_true]
            rcases o.llenReply with e | L
            · exact ⟨2, Or.inl rfl⟩
            · by_cases hL0 : L = 0
              · simp only [hL0, if_pos]
                exact ⟨2, Or.inl rfl⟩
              · simp only [hL0, if_neg, ite_false]
                rcases hres : resolveIndex q.indexStr L with _ | i
                · exact ⟨3, Or.inl rfl⟩
                · by_cases hb : i < 0 ∨ L ≤ i
                  · simp only [hb, if_pos]
                    exact ⟨4, Or.inl rfl⟩
                  · simp only [hb, if_neg, ite_false]
                    by_cases hpre : L ≤ maxPreloadSize
                    · simp only [hpre, if_pos]
                      rcases o.lrangeReply with e | vs
                      · exact ⟨5, Or.inl rfl⟩
                      · exact ⟨5, Or.inl rfl⟩
                    · simp only [hpre, if_neg, ite_false]
                      rcases o.lindexReply i with e | v
                      · exact ⟨5, Or.inr rfl⟩
                      · exact ⟨5, Or.inr rfl⟩
          · simp only [h1, h2, if_neg, ne_eq, ite_false, not_false_eq_true,
              if_pos, ite_true]
            exact ⟨1, Or.inl rfl⟩
  · unfold lindexHandlerBasic
    by_cases hk : q.key = ""
    · rw [if_pos hk]
      exact ⟨0, rfl⟩
    · rw [if_neg hk]
      rcases parseInt64 q.indexStr with _ | i
      · exact ⟨1, rfl⟩
      · rcases o.typeReply with e | t
        · exact ⟨2, rfl⟩
        · by_cases h1 : t = "none"
          · simp only [h1, if_pos]
            exact ⟨2, rfl⟩
          · by_cases h2 : t = "list"
            · simp only [h1, h2, if_neg, if_pos, ne_eq, not_true_eq_false,
                ite_false, ite_true, not_false_eq_true]
              rcases o.llenReply with e | L
              · exact ⟨3, rfl⟩
              · by_cases hL0 : L = 0
                · simp only [hL0, if_pos]
                  exact ⟨3, rfl⟩
                · by_cases hb : L = 0 ∨ (i < 0 ∨ L ≤ i)
                  · rcases hb with hb | hb
                    · exact absurd hb hL0
                    · simp only [hL0, hb, if_neg, if_pos, ite_false, ite_true]
                      exact ⟨4, rfl⟩
                  · push_neg at hb
                    simp only [hL0, if_neg, ite_false]
                    rw [if_neg (by omega : ¬(i < 0 ∨ L ≤ i))]
                    rcases o.lindexReply i with e | v
                    · exact ⟨5, rfl⟩
                    · exact ⟨5, rfl⟩
            · simp only [h1, h2, if_neg, ne_eq, ite_false, not_false_eq_true,
                if_pos, ite_true]
              exact ⟨2, rfl⟩

/-- Appending sizes keeps the count below the cap until the flag reports
the immediate return, at which point the count is exactly the cap. -/
theorem collectSizes_length (N : Nat) (llenOf : String → Except String Int) :
    ∀ (ks : List String) (acc acc2 : List ListInfo) (flag : Bool),
      acc.length < N → collectSizes N llenOf acc ks = (acc2, flag) →
      (flag = true → acc2.length = N) ∧ (flag = false → acc2.length < N) := by
  intro ks
  induction ks with
  | nil =>
    intro acc acc2 flag h hc
    rw [collectSizes] at hc
    cases hc
    exact ⟨fun hf => Bool.noConfusion hf, fun _ => h⟩
  | cons k ks ih =>
    intro acc acc2 flag h hc
    rw [collectSizes] at hc
    cases hl : llenOf k with
    | error e =>
      rw [hl] at hc
      dsimp only at hc
      exact ih acc acc2 flag h hc
    | ok sz =>
      rw [hl] at hc
      dsimp only at hc
      split at hc
      next hfull =>
        cases hc
        refine ⟨fun _ => ?_, fun hf => Bool.noConfusion hf⟩
        simp at hfull ⊢
        omega
      next hfull =>
        refine ih _ acc2 flag ?_ hc
        simp at hfull ⊢
        omega

/-- Every summary collected comes from the accumulator or from the given
keys. -/
theorem collectSizes_mem (N : Nat) (llenOf : String → Except String Int) :
    ∀ (ks : List String) (acc acc2 : List ListInfo) (flag : Bool)
      (x : ListInfo), collectSizes N llenOf acc ks = (acc2, flag) →
      x ∈ acc2 → x ∈ acc ∨ x.name ∈ ks := by
  intro ks
  induction ks with
  | nil =>
    intro acc acc2 flag x hc hx
    rw [collectSizes] at hc
    cases hc
    exact Or.inl hx
  | cons k ks ih =>
    intro acc acc2 flag x hc hx
    rw [collectSizes] at hc
    cases hl : llenOf k with
    | error e =>
      rw [hl] at hc
      dsimp only at hc
      rcases ih acc acc2 flag x hc hx with h | h
      · exact Or.inl h
      · exact Or.inr (List.mem_cons_of_mem _ h)
    | ok sz =>
      rw [hl] at hc
      dsimp only at hc
      split at hc
      next hfull =>
        cases hc
        rcases List.mem_append.mp hx with h | h
        · exact Or.inl h
        · simp at h
          exact Or.inr (by simp [h])
      next hfull =>
        rcases ih _ acc2 flag x hc hx with h | h
        · rcases List.mem_append.mp h with h2 | h2
          · exact Or.inl h2
          · simp at h2
            exact Or.inr (by simp [h2])
        · exact Or.inr (List.mem_cons_of_mem _ h)

/-- Length behaviour of one batch step, as for collectSizes. -/
theorem processBatch_length (ko : KeyOracle) (N : Nat) (acc acc2 : List ListInfo)
    (keys : List String) (flag : Bool) (h : acc.length < N)
    (hp : processBatch ko N acc keys = (acc2, flag)) :
    (flag = true → acc2.length = N) ∧ (flag = false → acc2.length < N) := by
  unfold processBatch at hp
  split at hp
  · cases hp
    exact ⟨fun hf => Bool.noConfusion hf, fun _ => h⟩
  · split at hp
    · cases hp
      exact ⟨fun hf => Bool.noConfusion hf, fun _ => h⟩
    · split at hp
      · cases hp
        exact ⟨fun hf => Bool.noConfusion hf, fun _ => h⟩
      · split at hp
        · cases hp
          exact ⟨fun hf => Bool.noConfusion hf, fun _ => h⟩
        · exact collectSizes_length N ko.llenOf _ acc acc2 flag h hp

/-- Every summary a batch step adds belongs to a key the batched type check
observed to be of list type. -/
theorem processBatch_mem (ko : KeyOracle) (N : Nat) (acc acc2 : List ListInfo)
    (keys : List String) (flag : Bool) (x : ListInfo)
    (hp : processBatch ko N acc keys = (acc2, flag)) (hx : x ∈ acc2) :
    x ∈ acc ∨ isListType (ko.typeOf x.name) = true := by
  unfold processBatch at hp
  split at hp
  · cases hp
    exact Or.inl hx
  · split at hp
    · cases hp
      exact Or.inl hx
    · split at hp
      · cases hp
        exact Or.inl hx
      · split at hp
        · cases hp
          exact Or.inl hx
        · rcases collectSizes_mem N ko.llenOf _ acc acc2 flag x hp hx with h | h
          · exact Or.inl h
          · exact Or.inr (List.mem_filter.mp h).2

/-- A successful scan loop run from an accumulator below the cap returns at
most the cap many summaries, each from the accumulator or confirmed of
list type. -/
theorem discoverLoop_ok_spec (ko : KeyOracle) (N : Nat) :
    ∀ (ss : List ScanReply) (acc l : List ListInfo), acc.length < N →
      discoverLoop ko N ss acc = .ok l →
      l.length ≤ N ∧ ∀ x ∈ l, x ∈ acc ∨ isListType (ko.typeOf x.name) = true := by
  intro ss
  induction ss with
  | nil =>
    intro acc l h hok
    cases hok
    exact ⟨Nat.le_of_lt h, fun x hx => Or.inl hx⟩
  | cons r rs ih =>
    intro acc l h hok
    cases r with
    | fail msg => simp [discoverLoop] at hok
    | batch keys nc =>
      rw [discoverLoop] at hok
      rcases hp : processBatch ko N acc keys with ⟨acc2, flag⟩
      rw [hp] at hok
      have hlen := processBatch_length ko N acc acc2 keys flag h hp
      have hmem : ∀ x ∈ acc2, x ∈ acc ∨ isListType (ko.typeOf x.name) = true :=
        fun x hx => processBatch_mem ko N acc acc2 keys flag x hp hx
      cases flag with
      | true =>
        dsimp only at hok
        cases hok
        exact ⟨Nat.le_of_eq (hlen.1 rfl), hmem⟩
      | false =>
        dsimp only at hok
        have h2 : acc2.length < N := hlen.2 rfl
        by_cases hc : nc = 0
        · rw [if_pos hc] at hok
          cases hok
          exact ⟨Nat.le_of_lt h2, hmem⟩
        · rw [if_neg hc] at hok
          rcases ih acc2 l h2 hok with ⟨h3, h4⟩
          refine ⟨h3, fun x hx => ?_⟩
          rcases h4 x hx with h5 | h5
          · exact hmem x h5
          · exact Or.inr h5

/-- A scan loop run that accumulated the full cap stopped inside a batch:
its outcome is unchanged by any scan replies after the ones it consumed. -/
theorem discoverLoop_early_exit (ko : KeyOracle) (N : Nat) :
    ∀ (ss : List ScanReply) (acc l : List ListInfo) (extra : List ScanReply),
      acc.length < N → discoverLoop ko N ss acc = .ok l → N ≤ l.length →
      discoverLoop ko N (ss ++ extra) acc = .ok l := by
  intro ss
  induction ss with
  | nil =>
    intro acc l extra h hok hfull
    cases hok
    omega
  | cons r rs ih =>
    intro acc l extra h hok hfull
    cases r with
    | fail msg => simp [discoverLoop] at hok
    | batch keys nc =>
      rw [discoverLoop] at hok
      rw [List.cons_append, discoverLoop]
      rcases hp : processBatch ko N acc keys with ⟨acc2, flag⟩
      rw [hp] at hok
      have hlen := processBatch_length ko N acc acc2 keys flag h hp
      cases flag with
      | true =>
        dsimp only at hok ⊢
        exact hok
      | false =>
        dsimp only at hok ⊢
        have h2 : acc2.length < N := hlen.2 rfl
        by_cases hc : nc = 0
        · rw [if_pos hc] at hok ⊢
          cases hok
          omega
        · rw [if_neg hc] at hok ⊢
          exact ih acc2 l extra h2 hok hfull

/-- C4: for every store behaviour and every cap of at least one, a
discovery run that completes returns at most the cap many summaries, every
returned summary is for a key the batched type check observed to be of
list type, and a run that filled the cap returned mid-scan: its result
does not depend on any further scan replies. -/
theorem claim4_discover_cap_and_types (ko : KeyOracle) (scans : List ScanReply)
    (N : Nat) (l : List ListInfo) (hN : 1 ≤ N)
    (h : getAvailableLists ko scans N = .ok l) :
    l.length ≤ N ∧
    (∀ x ∈ l, isListType (ko.typeOf x.name) = true) ∧
    (l.length = N → ∀ extra,
      getAvailableLists ko (scans ++ extra) N = .ok l) := by
  have h0 : ([] : List ListInfo).length < N := by simpa using hN
  rcases discoverLoop_ok_spec ko N scans [] l h0 h with ⟨h1, h2⟩
  refine ⟨h1, fun x hx => ?_, fun hfull extra => ?_⟩
  · rcases h2 x hx with h3 | h3
    · cases h3
    · exact h3
  · exact discoverLoop_early_exit ko N scans [] l extra h0 h (Nat.le_of_eq hfull.symm)

/-- A store in which every key is a list of length one, with no pipeline
failures. -/
def koAllOnes : KeyOracle :=
  ⟨fun _ => false, fun _ => .ok "list", fun _ => false, fun _ => .ok 1⟩

/-- Witness for C4: a single batch of three list keys against a cap of two
returns exactly the first two summaries, and any later batches are never
consulted. -/
theorem claim4_witness :
    (([⟨"a", 1⟩, ⟨"b", 1⟩] : List ListInfo).length ≤ 2) ∧
    (∀ x ∈ ([⟨"a", 1⟩, ⟨"b", 1⟩] : List ListInfo),
      isListType (koAllOnes.typeOf x.name) = true) ∧
    (([⟨"a", 1⟩, ⟨"b", 1⟩] : List ListInfo).length = 2 → ∀ extra,
      getAvailableLists koAllOnes ([.batch ["a", "b", "c"] 0] ++ extra) 2 =
        .ok [⟨"a", 1⟩, ⟨"b", 1⟩]) :=
  claim4_discover_cap_and_types koAllOnes [.batch ["a", "b", "c"] 0] 2
    [⟨"a", 1⟩, ⟨"b", 1⟩] (by decide) rfl

/-- A store in which every key is a list of length seven, with no pipeline
failures. -/
def koAllSevens : KeyOracle :=
  ⟨fun _ => false, fun _ => .ok "list", fun _ => false, fun _ => .ok 7⟩

/-- C7 as stated is false: after a first batch has accumulated one summary,
a failing second SCAN makes getAvailableLists return the error with no
results, not the accumulated partial list the claim promises, even though
the same run cut off before the failure had already collected that
summary. -/
theorem claim7_counterexample :
    getAvailableLists koAllSevens [.batch ["k1"] 5, .fail "scan failed"] 10 =
      .error "scan failed" ∧
    getAvailableLists koAllSevens [.batch ["k1"] 5] 10 = .ok [⟨"k1", 7⟩] :=
  ⟨rfl, rfl⟩

/-- C7 amended: a SCAN failure aborts discovery at once with the error,
discarding whatever summaries were already accumulated; the index page
handler swallows the error and renders an empty listing, so no fatal error
propagates past it, but no partial results are returned either. -/
theorem claim7_scan_failure_aborts (ko : KeyOracle) (N : Nat)
    (acc : List ListInfo) (msg : String) (rs : List ScanReply) :
    (discoverLoop ko N (.fail msg :: rs) acc = .error msg) ∧
    (∀ scans, getAvailableLists ko scans N = .error msg →
      indexPageLists ko scans N = []) := by
  refine ⟨rfl, fun scans h => ?_⟩
  unfold indexPageLists
  rw [h]

/-- Witness for the amended C7 at the concrete failing store of the
counterexample. -/
theorem claim7_witness :
    (discoverLoop koAllSevens 10 [.fail "scan failed"] [⟨"k1", 7⟩] =
      .error "scan failed") ∧
    (∀ scans, getAvailableLists koAllSevens scans 10 = .error "scan failed" →
      indexPageLists koAllSevens scans 10 = []) :=
  claim7_scan_failure_aborts koAllSevens 10 [⟨"k1", 7⟩] "scan failed" []

/-- C6: an input that does not parse as JSON is returned byte for byte
unchanged by the formatter; this is the fallback path, not an error. -/
theorem claim6_invalid_json_unchanged (s : String) (h : jsonParse s = none) :
    prettyPrintJSON s = s := by
  unfold prettyPrintJSON
  rw [h]

/-- Witness for C6 on a plain non-JSON string. -/
theorem claim6_witness : prettyPrintJSON "not json" = "not json" :=
  claim6_invalid_json_unchanged "not json" rfl

/-- C9: the formatter is a total deterministic function: every input string
lands in exactly one of the two defined outcomes, the unchanged input or
the indented re-encoding of its parsed value; there is no error outcome. -/
theorem claim9_formatter_total (s : String) :
    prettyPrintJSON s = s ∨
    ∃ v, jsonParse s = some v ∧ prettyPrintJSON s = marshalIndent v := by
  unfold prettyPrintJSON
  cases h : jsonParse s with
  | none => exact Or.inl rfl
  | some v => exact Or.inr ⟨v, rfl, rfl⟩

/-- Rebuilding a string from its own character data is the identity. -/
theorem stringMk_data (s : String) : String.mk s.data = s := rfl

/-- Dropping whitespace passes over a non-whitespace head unchanged. -/
theorem skipWS_nonws (c : Char) (t : List Char) (h : isWS c = false) :
    skipWS (c :: t) = c :: t := by
  rw [skipWS, h]
  rfl

/-- Dropping whitespace absorbs any two-space indentation prefix. -/
theorem skipWS_pad (n : Nat) (X : List Char) :
    skipWS (pad n ++ X) = skipWS X := by
  induction n with
  | zero => rfl
  | succ n ih =>
    rw [pad]
    show skipWS (' ' :: ' ' :: (pad n ++ X)) = skipWS X
    rw [skipWS, skipWS]
    norm_num [isWS]
    exact ih

/-- Dropping whitespace absorbs a newline. -/
theorem skipWS_nl (X : List Char) : skipWS ('\n' :: X) = skipWS X := by
  rw [skipWS]
  norm_num [isWS]

/-- Dropping whitespace absorbs a space. -/
theorem skipWS_sp (X : List Char) : skipWS (' ' :: X) = skipWS X := by
  rw [skipWS]
  norm_num [isWS]

/-- A value parse only looks at its input through skipWS. -/
theorem parseValue_congr_ws (f : Nat) (cs cs2 : List Char)
    (h : skipWS cs = skipWS cs2) : parseValue f cs = parseValue f cs2 := by
  cases f with
  | zero => rfl
  | succ f =>
    rw [parseValue, h, parseValue]

/-- An element-list parse only looks at its input through skipWS. -/
theorem parseElems_congr_ws (f : Nat) (cs cs2 : List Char)
    (h : skipWS cs = skipWS cs2) : parseElems f cs = parseElems f cs2 := by
  cases f with
  | zero => rfl
  | succ f =>
    rw [parseElems, parseValue_congr_ws f cs cs2 h, parseElems]

/-- A member-list parse only looks at its input through skipWS. -/
theorem parseFields_congr_ws (f : Nat) (cs cs2 : List Char)
    (h : skipWS cs = skipWS cs2) : parseFields f cs = parseFields f cs2 := by
  cases f with
  | zero => rfl
  | succ f =>
    rw [parseFields, h, parseFields]

/-- The hexadecimal digit printer and reader are mutually inverse below 16. -/
theorem hexVal_hexDigitChar (d : Nat) (h : d < 16) :
    hexVal (hexDigitChar d) = some d := by
  interval_cases d <;> decide

/-- Reading back the four printed hexadecimal digits of a value below 2^16
recovers the value and leaves the rest alone. -/
theorem parseHex4_digits (n : Nat) (h : n < 65536) (rest : List Char) :
    parseHex4 (hexDigitChar (n / 4096 % 16) :: hexDigitChar (n / 256 % 16) ::
      hexDigitChar (n / 16 % 16) :: hexDigitChar (n % 16) :: rest) =
      some (n, rest) := by
  rw [parseHex4]
  rw [hexVal_hexDigitChar _ (Nat.mod_lt _ (by norm_num)),
    hexVal_hexDigitChar _ (Nat.mod_lt _ (by norm_num)),
    hexVal_hexDigitChar _ (Nat.mod_lt _ (by norm_num)),
    hexVal_hexDigitChar _ (Nat.mod_lt _ (by norm_num))]
  dsimp only
  have heq : n / 4096 % 16 * 4096 + n / 256 % 16 * 256 + n / 16 % 16 * 16 + n % 16 = n := by
    omega
  rw [heq]

/-- One simple escape in a string literal decodes to its character. -/
theorem parseStrChars_escCode_step (f : Nat) (e c2 : Char) (tail : List Char)
    (he : e ≠ 'u') (h : escCode e = some c2) :
    parseStrChars (f + 1) ('\\' :: e :: tail) =
      (parseStrChars f tail).map (fun p => (c2 :: p.1, p.2)) := by
  rw [parseStrChars]
  rw [if_neg (by decide : ¬('\\' : Char) = '\"')]
  rw [if_pos (rfl : ('\\' : Char) = '\\')]
  rw [if_neg he, h]

/-- One \uXXXX escape below the surrogate range decodes to its character. -/
theorem parseStrChars_uEscape_step (f : Nat) (n : Nat) (tail : List Char)
    (hn : n < 55296) :
    parseStrChars (f + 1) ('\\' :: 'u' :: (hexDigitChar (n / 4096 % 16) ::
        hexDigitChar (n / 256 % 16) :: hexDigitChar (n / 16 % 16) ::
        hexDigitChar (n % 16) :: tail)) =
      (parseStrChars f tail).map (fun p => (Char.ofNat n :: p.1, p.2)) := by
  have hd : decodeU n tail = (Char.ofNat n, tail) := by
    simp only [decodeU]
    rw [if_neg (by omega : ¬(55296 ≤ n ∧ n < 56320)),
      if_neg (by omega : ¬(56320 ≤ n ∧ n < 57344))]
  rw [parseStrChars]
  rw [if_neg (by decide : ¬('\\' : Char) = '\"')]
  rw [if_pos (rfl : ('\\' : Char) = '\\')]
  rw [if_pos (rfl : ('u' : Char) = 'u')]
  rw [parseHex4_digits n (by omega) tail]
  dsimp only
  rw [hd]

/-- A raw, unescaped character in a string literal decodes to itself. -/
theorem parseStrChars_raw_step (f : Nat) (c : Char) (tail : List Char)
    (h1 : c ≠ '\"') (h2 : c ≠ '\\') (h3 : ¬(c.toNat < 32)) :
    parseStrChars (f + 1) (c :: tail) =
      (parseStrChars f tail).map (fun p => (c :: p.1, p.2)) := by
  rw [parseStrChars.eq_def]
  dsimp only
  rw [if_neg h1, if_neg h2, if_neg h3]

/-- Decoding an encoded string body consumes the body and the closing
quote and returns exactly the original characters, for any recursion
budget above the character count. -/
theorem parseStrChars_escBody (l : List Char) :
    ∀ (f : Nat) (rest : List Char), l.length + 1 ≤ f →
      parseStrChars f (escBody l ++ '\"' :: rest) = some (l, rest) := by
  induction l with
  | nil =>
    intro f rest hf
    cases f with
    | zero => omega
    | succ f =>
      rw [escBody, List.nil_append]
      exact rfl
  | cons c l ih =>
    intro f rest hf
    cases f with
    | zero => omega
    | succ f =>
      have hf2 : l.length + 1 ≤ f := by
        simp at hf
        omega
      rw [escBody, List.append_assoc]
      have hrec := ih f rest hf2
      rw [escChar]
      by_cases h1 : c = '\"'
      · rw [if_pos h1]
        rw [show (['\\', '\"'] : List Char) ++ (escBody l ++ '\"' :: rest) =
          '\\' :: '\"' :: (escBody l ++ '\"' :: rest) from rfl]
        rw [parseStrChars_escCode_step f '\"' '\"' _ (by decide) (by decide)]
        rw [hrec, h1]
        rfl
      · rw [if_neg h1]
        by_cases h2 : c = '\\'
        · rw [if_pos h2]
          rw [show (['\\', '\\'] : List Char) ++ (escBody l ++ '\"' :: rest) =
            '\\' :: '\\' :: (escBody l ++ '\"' :: rest) from rfl]
          rw [parseStrChars_escCode_step f '\\' '\\' _ (by decide) (by decide)]
          rw [hrec, h2]
          rfl
        · rw [if_neg h2]
          by_cases h3 : c = '\n'
          · rw [if_pos h3]
            rw [show (['\\', 'n'] : List Char) ++ (escBody l ++ '\"' :: rest) =
              '\\' :: 'n' :: (escBody l ++ '\"' :: rest) from rfl]
            rw [parseStrChars_escCode_step f 'n' '\n' _ (by decide) (by decide)]
            rw [hrec, h3]
            rfl
          · rw [if_neg h3]
            by_cases h4 : c = '\r'
            · rw [if_pos h4]
              rw [show (['\\', 'r'] : List Char) ++ (escBody l ++ '\"' :: rest) =
                '\\' :: 'r' :: (escBody l ++ '\"' :: rest) from rfl]
              rw [parseStrChars_escCode_step f 'r' '\r' _ (by decide) (by decide)]
              rw [hrec, h4]
              rfl
            · rw [if_neg h4]
              by_cases h5 : c = '\t'
              · rw [if_pos h5]
                rw [show (['\\', 't'] : List Char) ++ (escBody l ++ '\"' :: rest) =
                  '\\' :: 't' :: (escBody l ++ '\"' :: rest) from rfl]
                rw [parseStrChars_escCode_step f 't' '\t' _ (by decide) (by decide)]
                rw [hrec, h5]
                rfl
              · rw [if_neg h5]
                by_cases h6 : c.toNat < 32
                · rw [if_pos h6]
                  rw [uEscape]
                  rw [show ('\\' :: 'u' :: [hexDigitChar (c.toNat / 4096 % 16),
                      hexDigitChar (c.toNat / 256 % 16), hexDigitChar (c.toNat / 16 % 16),
                      hexDigitChar (c.toNat % 16)]) ++ (escBody l ++ '\"' :: rest) =
                    '\\' :: 'u' :: (hexDigitChar (c.toNat / 4096 % 16) ::
                      hexDigitChar (c.toNat / 256 % 16) :: hexDigitChar (c.toNat / 16 % 16) ::
                      hexDigitChar (c.toNat % 16) :: (escBody l ++ '\"' :: rest)) from rfl]
                  rw [parseStrChars_uEscape_step f c.toNat _ (by omega)]
                  rw [hrec, Char.ofNat_toNat]
                  rfl
                · rw [if_neg h6]
                  by_cases h7 : c = '<' ∨ c = '>' ∨ c = '&'
                  · rw [if_pos h7]
                    rw [uEscape]
                    rw [show ('\\' :: 'u' :: [hexDigitChar (c.toNat / 4096 % 16),
                        hexDigitChar (c.toNat / 256 % 16), hexDigitChar (c.toNat / 16 % 16),
                        hexDigitChar (c.toNat % 16)]) ++ (escBody l ++ '\"' :: rest) =
                      '\\' :: 'u' :: (hexDigitChar (c.toNat / 4096 % 16) ::
                        hexDigitChar (c.toNat / 256 % 16) :: hexDigitChar (c.toNat / 16 % 16) ::
                        hexDigitChar (c.toNat % 16) :: (escBody l ++ '\"' :: rest)) from rfl]
                    have hlt : c.toNat < 55296 := by
                      rcases h7 with h | h | h <;> rw [h] <;> decide
                    rw [parseStrChars_uEscape_step f c.toNat _ hlt]
                    rw [hrec, Char.ofNat_toNat]
                    rfl
                  · rw [if_neg h7]
                    by_cases h8 : c.toNat = 8232 ∨ c.toNat = 8233
                    · rw [if_pos h8]
                      rw [uEscape]
                      rw [show ('\\' :: 'u' :: [hexDigitChar (c.toNat / 4096 % 16),
                          hexDigitChar (c.toNat / 256 % 16), hexDigitChar (c.toNat / 16 % 16),
                          hexDigitChar (c.toNat % 16)]) ++ (escBody l ++ '\"' :: rest) =
                        '\\' :: 'u' :: (hexDigitChar (c.toNat / 4096 % 16) ::
                          hexDigitChar (c.toNat / 256 % 16) :: hexDigitChar (c.toNat / 16 % 16) ::
                          hexDigitChar (c.toNat % 16) :: (escBody l ++ '\"' :: rest)) from rfl]
                      have hlt : c.toNat < 55296 := by omega
                      rw [parseStrChars_uEscape_step f c.toNat _ hlt]
                      rw [hrec, Char.ofNat_toNat]
                      rfl
                    · rw [if_neg h8]
                      rw [show ([c] : List Char) ++ (escBody l ++ '\"' :: rest) =
                        c :: (escBody l ++ '\"' :: rest) from rfl]
                      rw [parseStrChars_raw_step f c _ h1 h2 h6]
                      rw [hrec]
                      rfl

/-- The head of a list, when present, avoids the given characters. -/
def headSafe (bad : Char → Bool) : List Char → Prop
  | [] => True
  | c :: _ => bad c = false

/-- Characters that could extend a digit run. -/
def isDigitB (c : Char) : Bool := c.isDigit

/-- The shape of the optional minus sign of a number token. -/
def SignShape (l : List Char) : Prop := l = [] ∨ l = ['-']

/-- The shape of the integer part of a number token: a lone zero, or a
nonzero digit followed by digits. -/
def IntShape (l : List Char) : Prop :=
  l = ['0'] ∨ ∃ c ds, l = c :: ds ∧ c.isDigit = true ∧ c ≠ '0' ∧
    ds.all Char.isDigit = true

/-- The shape of the optional fraction part: empty, or a dot followed by at
least one digit. -/
def FracShape (l : List Char) : Prop :=
  l = [] ∨ ∃ ds, l = '.' :: ds ∧ ds ≠ [] ∧ ds.all Char.isDigit = true

/-- The shape of the optional exponent part: empty, or an exponent letter,
an optional sign, and at least one digit. -/
def ExpShape (l : List Char) : Prop :=
  l = [] ∨ ∃ e sg ds, l = e :: sg ++ ds ∧ (e = 'e' ∨ e = 'E') ∧
    (sg = [] ∨ sg = ['+'] ∨ sg = ['-']) ∧ ds ≠ [] ∧ ds.all Char.isDigit = true

/-- A well formed JSON number token, decomposed by the grammar. -/
def NumTok (t : List Char) : Prop :=
  ∃ sg ip fp ep, t = sg ++ ip ++ fp ++ ep ∧ SignShape sg ∧ IntShape ip ∧
    FracShape fp ∧ ExpShape ep

/-- Scanning a run of digits followed by a non-digit consumes exactly the
run. -/
theorem scanDigits_replay (ds : List Char) (hds : ds.all Char.isDigit = true) :
    ∀ X, headSafe isDigitB X → scanDigits (ds ++ X) = (ds, X) := by
  induction ds with
  | nil =>
    intro X hX
    cases X with
    | nil => rfl
    | cons c t =>
      rw [List.nil_append, scanDigits]
      have hc : c.isDigit = false := hX
      rw [hc]
      norm_num
  | cons d ds ih =>
    intro X hX
    simp only [List.all_cons, Bool.and_eq_true] at hds
    rw [List.cons_append, scanDigits, hds.1]
    rw [ih hds.2 X hX]
    norm_num

/-- Scanning an integer part of valid shape before a non-digit consumes
exactly that part. -/
theorem scanIntPart_replay (ip : List Char) (h : IntShape ip) :
    ∀ X, headSafe isDigitB X → scanIntPart (ip ++ X) = some (ip, X) := by
  intro X hX
  rcases h with h | ⟨c, ds, rfl, hd, hz, hds⟩
  · subst h
    rfl
  · rw [List.cons_append, scanIntPart, if_neg hz, if_pos hd]
    rw [scanDigits_replay ds hds X hX]

/-- Scanning a fraction part of valid shape before a character that is
neither a digit nor a dot consumes exactly that part. -/
theorem scanFracPart_replay (fp : List Char) (h : FracShape fp) :
    ∀ X, headSafe (fun c => c.isDigit ∨ c = '.') X →
      scanFracPart (fp ++ X) = some (fp, X) := by
  intro X hX
  rcases h with h | ⟨ds, rfl, hne, hds⟩
  · subst h
    cases X with
    | nil => rfl
    | cons c t =>
      rw [List.nil_append, scanFracPart]
      have hc : (decide (c.isDigit = true ∨ c = '.') : Bool) = false := hX
      have hcc : ¬ c = '.' := by
        intro hcc
        rw [hcc] at hc
        simp at hc
      rw [if_neg hcc]
  · have hdig : headSafe isDigitB X := by
      cases X with
      | nil => trivial
      | cons c t =>
        have hc : (decide (c.isDigit = true ∨ c = '.') : Bool) = false := hX
        show c.isDigit = false
        simp at hc
        exact hc.1
    rw [List.cons_append, scanFracPart, if_pos rfl]
    rw [scanDigits_replay ds hds X hdig]
    cases ds with
    | nil => exact absurd rfl hne
    | cons d ds2 =>
      norm_num
      exact fun hcc => absurd hcc (List.cons_ne_nil d ds2)

/-- Scanning an exponent part of valid shape before a character that is
neither a digit nor an exponent letter consumes exactly that part. -/
theorem scanExpPart_replay (ep : List Char) (h : ExpShape ep) :
    ∀ X, headSafe (fun c => c.isDigit ∨ c = 'e' ∨ c = 'E') X →
      scanExpPart (ep ++ X) = some (ep, X) := by
  intro X hX
  rcases h with h | ⟨e, sg, ds, rfl, he, hsg, hne, hds⟩
  · subst h
    cases X with
    | nil => rfl
    | cons c t =>
      rw [List.nil_append, scanExpPart.eq_def]
      dsimp only
      have hc : (decide (c.isDigit = true ∨ c = 'e' ∨ c = 'E') : Bool) = false := hX
      simp at hc
      rw [if_neg (by tauto : ¬(c = 'e' ∨ c = 'E'))]
  · have hdig : headSafe isDigitB X := by
      cases X with
      | nil => trivial
      | cons c t =>
        have hc : (decide (c.isDigit = true ∨ c = 'e' ∨ c = 'E') : Bool) = false := hX
        show c.isDigit = false
        simp at hc
        exact hc.1
    obtain ⟨d, ds2, rfl⟩ : ∃ d ds2, ds = d :: ds2 := by
      cases ds with
      | nil => exact absurd rfl hne
      | cons d ds2 => exact ⟨d, ds2, rfl⟩
    simp only [List.all_cons, Bool.and_eq_true] at hds
    have hdsall : (d :: ds2).all Char.isDigit = true := by
      simp [hds.1, hds.2]
    have hpm : ¬(d = '+' ∨ d = '-') := by
      intro hdd
      rcases hdd with hdd | hdd <;> rw [hdd] at hds <;>
        exact absurd hds.1 (by decide)
    have hscan := scanDigits_replay (d :: ds2) hdsall X hdig
    rcases hsg with rfl | rfl | rfl
    · show scanExpPart (e :: d :: (ds2 ++ X)) = some (e :: d :: ds2, X)
      rw [scanExpPart.eq_def]
      dsimp only
      rw [if_pos he, if_neg hpm]
      rw [show d :: (ds2 ++ X) = (d :: ds2) ++ X from rfl, hscan]
      norm_num
      exact fun hcc => absurd hcc (List.cons_ne_nil d ds2)
    · show scanExpPart (e :: '+' :: d :: (ds2 ++ X)) = some (e :: '+' :: d :: ds2, X)
      rw [scanExpPart.eq_def]
      dsimp only
      rw [if_pos he]
      rw [if_pos (show ('+' : Char) = '+' ∨ ('+' : Char) = '-' from Or.inl rfl)]
      rw [show d :: (ds2 ++ X) = (d :: ds2) ++ X from rfl, hscan]
      norm_num
      exact fun hcc => absurd hcc (List.cons_ne_nil d ds2)
    · show scanExpPart (e :: '-' :: d :: (ds2 ++ X)) = some (e :: '-' :: d :: ds2, X)
      rw [scanExpPart.eq_def]
      dsimp only
      rw [if_pos he]
      rw [if_pos (show ('-' : Char) = '+' ∨ ('-' : Char) = '-' from Or.inr rfl)]
      rw [show d :: (ds2 ++ X) = (d :: ds2) ++ X from rfl, hscan]
      norm_num
      exact fun hcc => absurd hcc (List.cons_ne_nil d ds2)

/-- The characters that can follow a printed value inside MarshalIndent
output: a separating comma, a newline, or a closing bracket or brace; or
nothing at the very end. -/
def printedStop : List Char → Prop
  | [] => True
  | c :: _ => c = ',' ∨ c = '\n' ∨ c = ']' ∨ c = '\x7d'

/-- A printed stop character cannot extend a digit run. -/
theorem printedStop_digit (X : List Char) (h : printedStop X) :
    headSafe isDigitB X := by
  cases X with
  | nil => trivial
  | cons c t =>
    show isDigitB c = false
    rcases h with h | h | h | h <;> rw [h] <;> decide

/-- A printed stop character cannot open a fraction part. -/
theorem printedStop_frac (X : List Char) (h : printedStop X) :
    headSafe (fun c => c.isDigit ∨ c = '.') X := by
  cases X with
  | nil => trivial
  | cons c t =>
    show (decide (c.isDigit = true ∨ c = '.') : Bool) = false
    rcases h with h | h | h | h <;> rw [h] <;> decide

/-- A printed stop character cannot open an exponent part. -/
theorem printedStop_exp (X : List Char) (h : printedStop X) :
    headSafe (fun c => c.isDigit ∨ c = 'e' ∨ c = 'E') X := by
  cases X with
  | nil => trivial
  | cons c t =>
    show (decide (c.isDigit = true ∨ c = 'e' ∨ c = 'E') : Bool) = false
    rcases h with h | h | h | h <;> rw [h] <;> decide

/-- A digit is not the minus sign. -/
theorem digit_ne_minus (c : Char) (h : c.isDigit = true) : ¬ c = '-' := by
  intro hc
  rw [hc] at h
  exact absurd h (by decide)

/-- Scanning a well formed number token before a printed stop character
consumes exactly the token. -/
theorem scanNumber_replay (t : List Char) (h : NumTok t) (X : List Char)
    (hX : printedStop X) : scanNumber (t ++ X) = some (t, X) := by
  obtain ⟨sg, ip, fp, ep, rfl, hsg, hip, hfp, hep⟩ := h
  have hXe : headSafe (fun c => c.isDigit ∨ c = 'e' ∨ c = 'E') X :=
    printedStop_exp X hX
  have hXf : headSafe (fun c => c.isDigit ∨ c = '.') (ep ++ X) := by
    rcases hep with rfl | ⟨e, sgn, ds, rfl, he, hsgn, hne, hds⟩
    · rw [List.nil_append]
      exact printedStop_frac X hX
    · show (decide (e.isDigit = true ∨ e = '.') : Bool) = false
      rcases he with rfl | rfl <;> decide
  have hXd : headSafe isDigitB (fp ++ (ep ++ X)) := by
    rcases hfp with rfl | ⟨ds, rfl, hne, hds⟩
    · rw [List.nil_append]
      cases hcc : ep ++ X with
      | nil => trivial
      | cons c t2 =>
        show isDigitB c = false
        have := hXf
        rw [hcc] at this
        have hcd : (decide (c.isDigit = true ∨ c = '.') : Bool) = false := this
        simp at hcd
        simpa [isDigitB] using hcd.1
    · show isDigitB '.' = false
      decide
  have hi := scanIntPart_replay ip hip (fp ++ (ep ++ X)) hXd
  have hf := scanFracPart_replay fp hfp (ep ++ X) hXf
  have he2 := scanExpPart_replay ep hep X hXe
  have main : scanNumber (ip ++ (fp ++ (ep ++ X))) = some (ip ++ fp ++ ep, X) := by
    obtain ⟨c, rest, hipc, hcm⟩ : ∃ c rest, ip = c :: rest ∧ ¬ c = '-' := by
      rcases hip with h0 | ⟨c, ds, hipc, hd, hz, hds⟩
      · exact ⟨'0', [], h0, by decide⟩
      · exact ⟨c, ds, hipc, digit_ne_minus c hd⟩
    subst hipc
    rw [List.cons_append, scanNumber.eq_def]
    dsimp only
    rw [if_neg hcm]
    rw [show c :: (rest ++ (fp ++ (ep ++ X))) = (c :: rest) ++ (fp ++ (ep ++ X))
      from rfl, hi]
    dsimp only
    rw [hf]
    dsimp only
    rw [he2]
    dsimp only
    simp [List.append_assoc]
  rcases hsg with rfl | rfl
  · rw [show (([] : List Char) ++ ip ++ fp ++ ep) ++ X = ip ++ (fp ++ (ep ++ X))
      by simp [List.append_assoc]]
    rw [main]
    simp
  · rw [show ((['-'] : List Char) ++ ip ++ fp ++ ep) ++ X =
      '-' :: (ip ++ (fp ++ (ep ++ X))) by simp [List.append_assoc]]
    rw [scanNumber.eq_def]
    dsimp only
    rw [if_pos rfl, hi]
    dsimp only
    rw [hf]
    dsimp only
    rw [he2]

/-- Every character a digit scan keeps is a digit. -/
theorem scanDigits_shape : ∀ cs : List Char,
    (scanDigits cs).1.all Char.isDigit = true := by
  intro cs
  induction cs with
  | nil => rfl
  | cons c cs ih =>
    rw [scanDigits]
    by_cases hc : c.isDigit
    · simp only [hc, if_pos]
      simp [hc, ih]
    · simp only [hc, if_neg, Bool.false_eq_true, ite_false]
      rfl

/-- A successful integer-part scan returns a well shaped integer part. -/
theorem scanIntPart_shape (cs ip r : List Char)
    (h : scanIntPart cs = some (ip, r)) : IntShape ip := by
  cases cs with
  | nil => cases h
  | cons c cs2 =>
    rw [scanIntPart] at h
    by_cases h0 : c = '0'
    · rw [if_pos h0] at h
      cases h
      exact Or.inl rfl
    · rw [if_neg h0] at h
      by_cases hd : c.isDigit
      · rw [if_pos hd] at h
        cases h
        exact Or.inr ⟨c, _, rfl, hd, h0, scanDigits_shape cs2⟩
      · rw [if_neg hd] at h
        cases h

/-- A successful fraction-part scan returns a well shaped fraction part. -/
theorem scanFracPart_shape (cs fp r : List Char)
    (h : scanFracPart cs = some (fp, r)) : FracShape fp := by
  cases cs with
  | nil =>
    cases h
    exact Or.inl rfl
  | cons c cs2 =>
    rw [scanFracPart] at h
    by_cases h0 : c = '.'
    · rw [if_pos h0] at h
      dsimp only at h
      by_cases he : (scanDigits cs2).1 = []
      · rw [if_pos he] at h
        cases h
      · rw [if_neg he] at h
        cases h
        exact Or.inr ⟨_, rfl, he, scanDigits_shape cs2⟩
    · rw [if_neg h0] at h
      cases h
      exact Or.inl rfl

/-- A successful exponent-part scan returns a well shaped exponent part. -/
theorem scanExpPart_shape (cs ep r : List Char)
    (h : scanExpPart cs = some (ep, r)) : ExpShape ep := by
  cases cs with
  | nil =>
    cases h
    exact Or.inl rfl
  | cons c cs2 =>
    rw [scanExpPart.eq_def] at h
    dsimp only at h
    by_cases h0 : c = 'e' ∨ c = 'E'
    · rw [if_pos h0] at h
      cases cs2 with
      | nil => cases h
      | cons s cs3 =>
        dsimp only at h
        by_cases hs : s = '+' ∨ s = '-'
        · rw [if_pos hs] at h
          by_cases he : (scanDigits cs3).1 = []
          · rw [if_pos he] at h
            cases h
          · rw [if_neg he] at h
            cases h
            refine Or.inr ⟨c, [s], (scanDigits cs3).1, by simp, h0, ?_, he,
              scanDigits_shape cs3⟩
            rcases hs with rfl | rfl
            · exact Or.inr (Or.inl rfl)
            · exact Or.inr (Or.inr rfl)
        · rw [if_neg hs] at h
          by_cases he : (scanDigits (s :: cs3)).1 = []
          · rw [if_pos he] at h
            cases h
          · rw [if_neg he] at h
            cases h
            exact Or.inr ⟨c, [], (scanDigits (s :: cs3)).1, by simp, h0,
              Or.inl rfl, he, scanDigits_shape (s :: cs3)⟩
    · rw [if_neg h0] at h
      cases h
      exact Or.inl rfl

/-- A successful number scan returns a well formed number token. -/
theorem scanNumber_numTok (cs t r : List Char)
    (h : scanNumber cs = some (t, r)) : NumTok t := by
  cases cs with
  | nil => cases h
  | cons c cs2 =>
    rw [scanNumber.eq_def] at h
    dsimp only at h
    by_cases hm : c = '-'
    · rw [if_pos hm] at h
      dsimp only at h
      rcases hi : scanIntPart cs2 with _ | ⟨ip, cs3⟩
      · rw [hi] at h
        cases h
      · rw [hi] at h
        dsimp only at h
        rcases hf : scanFracPart cs3 with _ | ⟨fp, cs4⟩
        · rw [hf] at h
          cases h
        · rw [hf] at h
          dsimp only at h
          rcases he : scanExpPart cs4 with _ | ⟨ep, cs5⟩
          · rw [he] at h
            cases h
          · rw [he] at h
            dsimp only at h
            cases h
            exact ⟨['-'], ip, fp, ep, rfl, Or.inr rfl,
              scanIntPart_shape cs2 ip cs3 hi, scanFracPart_shape cs3 fp cs4 hf,
              scanExpPart_shape cs4 ep r he⟩
    · rw [if_neg hm] at h
      dsimp only at h
      rcases hi : scanIntPart (c :: cs2) with _ | ⟨ip, cs3⟩
      · rw [hi] at h
        cases h
      · rw [hi] at h
        dsimp only at h
        rcases hf : scanFracPart cs3 with _ | ⟨fp, cs4⟩
        · rw [hf] at h
          cases h
        · rw [hf] at h
          dsimp only at h
          rcases he : scanExpPart cs4 with _ | ⟨ep, cs5⟩
          · rw [he] at h
            cases h
          · rw [he] at h
            dsimp only at h
            cases h
            exact ⟨[], ip, fp, ep, by simp, Or.inl rfl,
              scanIntPart_shape (c :: cs2) ip cs3 hi,
              scanFracPart_shape cs3 fp cs4 hf,
              scanExpPart_shape cs4 ep r he⟩

/-- Object fields in strictly increasing key order, the order in which Go
marshals a map. -/
def SortedKeys (fs : List (String × JsonValue)) : Prop :=
  fs.Pairwise (fun a b => a.1 < b.1)

/-- Well formed JSON values: exactly the values the decoder can produce.
Number literals satisfy the grammar and object fields are key-sorted. -/
inductive WF : JsonValue → Prop where
  | null : WF .null
  | bool (b : Bool) : WF (.bool b)
  | num (lit : String) : NumTok lit.data → WF (.num lit)
  | str (s : String) : WF (.str s)
  | arr (es : List JsonValue) : (∀ e ∈ es, WF e) → WF (.arr es)
  | obj (fs : List (String × JsonValue)) : SortedKeys fs →
      (∀ kv ∈ fs, WF kv.2) → WF (.obj fs)

/-- Everything in an insertion is the new pair or an old member. -/
theorem insertField_mem (k : String) (v : JsonValue) :
    ∀ (l : List (String × JsonValue)) (kv : String × JsonValue),
      kv ∈ insertField k v l → kv = (k, v) ∨ kv ∈ l := by
  intro l
  induction l with
  | nil =>
    intro kv h
    rw [insertField] at h
    rcases List.mem_singleton.mp h with h2
    exact Or.inl h2
  | cons p l ih =>
    intro kv h
    obtain ⟨k2, v2⟩ := p
    rw [insertField] at h
    by_cases h1 : k < k2
    · rw [if_pos h1] at h
      rcases List.mem_cons.mp h with h | h
      · exact Or.inl h
      · exact Or.inr h
    · rw [if_neg h1] at h
      by_cases h2 : k = k2
      · rw [if_pos h2] at h
        rcases List.mem_cons.mp h with h | h
        · exact Or.inl h
        · exact Or.inr (List.mem_cons_of_mem _ h)
      · rw [if_neg h2] at h
        rcases List.mem_cons.mp h with h | h
        · exact Or.inr (by rw [h]; exact List.mem_cons_self _ _)
        · rcases ih kv h with h3 | h3
          · exact Or.inl h3
          · exact Or.inr (List.mem_cons_of_mem _ h3)

/-- Insertion keeps the field list sorted by key. -/
theorem insertField_sorted (k : String) (v : JsonValue) :
    ∀ (l : List (String × JsonValue)), SortedKeys l →
      SortedKeys (insertField k v l) := by
  intro l
  induction l with
  | nil =>
    intro _
    simp [insertField, SortedKeys]
  | cons p l ih =>
    intro hs
    obtain ⟨k2, v2⟩ := p
    rw [SortedKeys, List.pairwise_cons] at hs
    rw [insertField]
    by_cases h1 : k < k2
    · rw [if_pos h1]
      rw [SortedKeys, List.pairwise_cons]
      refine ⟨?_, ?_⟩
      · intro b hb
        rcases List.mem_cons.mp hb with rfl | hb2
        · exact h1
        · exact lt_trans h1 (hs.1 b hb2)
      · rw [List.pairwise_cons]
        exact ⟨hs.1, hs.2⟩
    · rw [if_neg h1]
      by_cases h2 : k = k2
      · rw [if_pos h2]
        rw [SortedKeys, List.pairwise_cons]
        subst h2
        exact ⟨hs.1, hs.2⟩
      · rw [if_neg h2]
        rw [SortedKeys, List.pairwise_cons]
        have hk2 : k2 < k := by
          rcases lt_trichotomy k k2 with h | h | h
          · exact absurd h h1
          · exact absurd h h2
          · exact h
        refine ⟨?_, ih hs.2⟩
        intro b hb
        rcases insertField_mem k v l b hb with rfl | hb2
        · exact hk2
        · exact hs.1 b hb2

/-- Inserting a key above every key of a sorted list appends it. -/
theorem insertField_append (k : String) (v : JsonValue) :
    ∀ (l : List (String × JsonValue)), (∀ kv ∈ l, kv.1 < k) →
      insertField k v l = l ++ [(k, v)] := by
  intro l
  induction l with
  | nil =>
    intro _
    rfl
  | cons p l ih =>
    intro hall
    obtain ⟨k2, v2⟩ := p
    have hk2 : k2 < k := hall (k2, v2) (List.mem_cons_self _ _)
    rw [insertField]
    rw [if_neg (by exact fun h => absurd (lt_trans h hk2) (lt_irrefl k))]
    rw [if_neg (by exact fun h => absurd (h ▸ hk2) (lt_irrefl k))]
    rw [ih (fun kv hkv => hall kv (List.mem_cons_of_mem _ hkv))]
    rfl

/-- Normalising any parsed field list yields a sorted field list. -/
theorem normalizeFields_sorted (fs : List (String × JsonValue)) :
    SortedKeys (normalizeFields fs) := by
  have main : ∀ (l : List (String × JsonValue)) (acc : List (String × JsonValue)),
      SortedKeys acc →
      SortedKeys (l.foldl (fun acc f => insertField f.1 f.2 acc) acc) := by
    intro l
    induction l with
    | nil => exact fun acc h => h
    | cons p l ih =>
      intro acc hacc
      exact ih _ (insertField_sorted p.1 p.2 acc hacc)
  exact main fs [] (by simp [SortedKeys])

/-- Every normalised field comes from the parsed field list. -/
theorem normalizeFields_mem (fs : List (String × JsonValue))
    (kv : String × JsonValue) (h : kv ∈ normalizeFields fs) : kv ∈ fs := by
  have main : ∀ (l acc : List (String × JsonValue)) (kv : String × JsonValue),
      kv ∈ l.foldl (fun acc f => insertField f.1 f.2 acc) acc →
      kv ∈ acc ∨ kv ∈ l := by
    intro l
    induction l with
    | nil => exact fun acc kv h => Or.inl h
    | cons p l ih =>
      intro acc kv h
      rcases ih _ kv h with h2 | h2
      · rcases insertField_mem p.1 p.2 acc kv h2 with h3 | h3
        · exact Or.inr (by rw [h3]; exact List.mem_cons_self _ _)
        · exact Or.inl h3
      · exact Or.inr (List.mem_cons_of_mem _ h2)
  rcases main fs [] kv h with h2 | h2
  · cases h2
  · exact h2

/-- Normalising an already sorted field list changes nothing. -/
theorem normalizeFields_sorted_id (fs : List (String × JsonValue))
    (hs : SortedKeys fs) : normalizeFields fs = fs := by
  have main : ∀ (l acc : List (String × JsonValue)), SortedKeys (acc ++ l) →
      l.foldl (fun acc f => insertField f.1 f.2 acc) acc = acc ++ l := by
    intro l
    induction l with
    | nil => exact fun acc _ => by simp
    | cons p l ih =>
      intro acc hacc
      have hall : ∀ kv ∈ acc, kv.1 < p.1 := by
        intro kv hkv
        rw [SortedKeys, List.pairwise_append] at hacc
        exact hacc.2.2 kv hkv p (List.mem_cons_self _ _)
      show (l.foldl (fun acc f => insertField f.1 f.2 acc)
        (insertField p.1 p.2 acc)) = acc ++ p :: l
      rw [insertField_append p.1 p.2 acc hall]
      rw [ih (acc ++ [p]) (by simpa using hacc)]
      simp
  simpa using main fs [] (by simpa using hs)

mutual

/-- Recursion budget sufficient to parse the printed form of a value. -/
def fuelV : JsonValue → Nat
  | .null => 1
  | .bool _ => 1
  | .num _ => 1
  | .str s => s.data.length + 2
  | .arr [] => 1
  | .arr (e :: es) => 2 + fuelL e es
  | .obj [] => 1
  | .obj (f :: fs) => 2 + fuelF f fs
termination_by v => sizeOf v

/-- Budget sufficient to parse a printed nonempty element list. -/
def fuelL (e : JsonValue) (es : List JsonValue) : Nat :=
  match es with
  | [] => 1 + fuelV e
  | e2 :: es2 => 1 + fuelV e + fuelL e2 es2
termination_by 1 + sizeOf e + sizeOf es

/-- Budget sufficient to parse a printed nonempty member list. -/
def fuelF (f : String × JsonValue) (fs : List (String × JsonValue)) : Nat :=
  match fs with
  | [] => 2 + f.1.data.length + fuelV f.2
  | f2 :: fs2 => 2 + f.1.data.length + fuelV f.2 + fuelF f2 fs2
termination_by 1 + sizeOf f + sizeOf fs
decreasing_by all_goals (obtain ⟨k0, v0⟩ := f; simp_wf <;> omega)

end

/-- Escaping never shortens a string body. -/
theorem escBody_length (l : List Char) : l.length ≤ (escBody l).length := by
  induction l with
  | nil => simp [escBody]
  | cons c l ih =>
    rw [escBody]
    have h1 : 1 ≤ (escChar c).length := by
      rw [escChar]
      repeat' split
      all_goals simp [uEscape]
    simp only [List.length_append, List.length_cons]
    omega

/-- Every positive budget is at least one. -/
theorem fuelV_pos (v : JsonValue) : 1 ≤ fuelV v := by
  cases v with
  | null => rw [fuelV]
  | bool b => rw [fuelV]
  | num lit => rw [fuelV]
  | str s =>
    rw [fuelV]
    omega
  | arr es =>
    cases es with
    | nil => rw [fuelV]
    | cons e es2 =>
      rw [fuelV]
      omega
  | obj fs =>
    cases fs with
    | nil => rw [fuelV]
    | cons f fs2 =>
      rw [fuelV]
      omega

/-- A well formed number token starts with a minus sign or a digit. -/
theorem numTok_head (l : List Char) (h : NumTok l) :
    ∃ c t, l = c :: t ∧ (c = '-' ∨ c.isDigit = true) := by
  obtain ⟨sg, ip, fp, ep, rfl, hsg, hip, hfp, hep⟩ := h
  rcases hsg with rfl | rfl
  · rcases hip with h0 | ⟨c, ds, hipc, hd, hz, hds⟩
    · subst h0
      exact ⟨'0', fp ++ ep, by simp, Or.inr (by decide)⟩
    · subst hipc
      exact ⟨c, ds ++ fp ++ ep, by simp, Or.inr hd⟩
  · exact ⟨'-', ip ++ fp ++ ep, by simp, Or.inl rfl⟩

/-- The first character of any printed well formed value is not whitespace
and is not a closing bracket or brace. -/
theorem printV_head (ind : Nat) (v : JsonValue) (wf : WF v) :
    ∃ c t, printV ind v = c :: t ∧ isWS c = false ∧ ¬ c = ']' ∧
      ¬ c = '\x7d' := by
  cases v with
  | null => exact ⟨'n', _, by rw [printV], by decide, by decide, by decide⟩
  | bool b =>
    cases b with
    | true => exact ⟨'t', _, by rw [printV], by decide, by decide, by decide⟩
    | false => exact ⟨'f', _, by rw [printV], by decide, by decide, by decide⟩
  | num lit =>
    cases wf with
    | num _ hnum =>
      obtain ⟨c, t, hct, hc⟩ := numTok_head lit.data hnum
      refine ⟨c, t, by rw [printV, hct], ?_, ?_, ?_⟩
      · rcases hc with rfl | hc
        · decide
        · show decide (c = ' ' ∨ c = '\t' ∨ c = '\n' ∨ c = '\r') = false
          simp only [decide_eq_false_iff_not]
          intro hor
          rcases hor with rfl | rfl | rfl | rfl <;> exact absurd hc (by decide)
      · rcases hc with rfl | hc
        · decide
        · intro hc2
          rw [hc2] at hc
          exact absurd hc (by decide)
      · rcases hc with rfl | hc
        · decide
        · intro hc2
          rw [hc2] at hc
          exact absurd hc (by decide)
  | str s => exact ⟨'\"', _, by rw [printV, quoteStr]; exact rfl, by decide, by decide, by decide⟩
  | arr es =>
    cases es with
    | nil => exact ⟨'[', _, by rw [printV], by decide, by decide, by decide⟩
    | cons e es2 =>
      exact ⟨'[', _, by rw [printV]; exact rfl, by decide, by decide, by decide⟩
  | obj fs =>
    cases fs with
    | nil => exact ⟨'\x7b', _, by rw [printV], by decide, by decide, by decide⟩
    | cons f fs2 =>
      exact ⟨'\x7b', _, by rw [printV]; exact rfl, by decide, by decide, by decide⟩

/-- A comma is a printed stop. -/
theorem printedStop_comma (X : List Char) : printedStop (',' :: X) := Or.inl rfl

/-- A newline is a printed stop. -/
theorem printedStop_nl (X : List Char) : printedStop ('\n' :: X) :=
  Or.inr (Or.inl rfl)

/-- Every JSON value has positive size. -/
theorem jsonValue_sizeOf_pos (v : JsonValue) : 1 ≤ sizeOf v := by
  cases v <;> simp_arith

/-- The three round-trip statements, proved together by strong induction on
a size bound: parsing the printed form of a well formed value, element
list, or member list before a printed stop recovers it exactly. -/
theorem rtAll : ∀ n : Nat,
    (∀ v : JsonValue, sizeOf v ≤ n → WF v →
      ∀ (ind : Nat) (rest : List Char) (f : Nat), fuelV v ≤ f →
        printedStop rest →
        parseValue f (printV ind v ++ rest) = some (v, rest)) ∧
    (∀ (e : JsonValue) (es : List JsonValue), 1 + sizeOf e + sizeOf es ≤ n →
      (∀ x ∈ e :: es, WF x) →
      ∀ (ind i0 : Nat) (rest : List Char) (f : Nat), fuelL e es ≤ f →
        printedStop rest →
        parseElems f (printElems ind e es ++ '\n' :: (pad i0 ++ ']' :: rest)) =
          some (e :: es, rest)) ∧
    (∀ (kv : String × JsonValue) (fs : List (String × JsonValue)),
      1 + sizeOf kv + sizeOf fs ≤ n → (∀ x ∈ kv :: fs, WF x.2) →
      ∀ (ind i0 : Nat) (rest : List Char) (f : Nat), fuelF kv fs ≤ f →
        printedStop rest →
        parseFields f (printFields ind kv fs ++
            '\n' :: (pad i0 ++ '\x7d' :: rest)) =
          some (kv :: fs, rest)) := by
  intro n
  induction n with
  | zero =>
    refine ⟨?_, ?_, ?_⟩
    · intro v hsize
      exact absurd hsize (by have := jsonValue_sizeOf_pos v; omega)
    · intro e es hsize
      exact absurd hsize (by omega)
    · intro kv fs hsize
      exact absurd hsize (by omega)
  | succ n ih =>
    refine ⟨?_, ?_, ?_⟩
    · intro v hsize wf ind rest f hf hstop
      obtain ⟨g, rfl⟩ : ∃ g, f = g + 1 := ⟨f - 1, by have := fuelV_pos v; omega⟩
      cases v with
      | null =>
        rw [printV]
        exact rfl
      | bool b =>
        cases b with
        | true =>
          rw [printV]
          exact rfl
        | false =>
          rw [printV]
          exact rfl
      | num lit =>
        cases wf with
        | num _ hnum =>
          obtain ⟨c, t, hct, hc⟩ := numTok_head lit.data hnum
          have hnws : isWS c = false := by
            rcases hc with rfl | hc
            · decide
            · show decide (c = ' ' ∨ c = '\t' ∨ c = '\n' ∨ c = '\r') = false
              simp only [decide_eq_false_iff_not]
              intro hor
              rcases hor with rfl | rfl | rfl | rfl <;> exact absurd hc (by decide)
          have hd6 : ¬ c = 'n' ∧ ¬ c = 't' ∧ ¬ c = 'f' ∧ ¬ c = '\"' ∧
              ¬ c = '[' ∧ ¬ c = '\x7b' := by
            rcases hc with rfl | hc
            · exact ⟨by decide, by decide, by decide, by decide, by decide, by decide⟩
            · refine ⟨?_, ?_, ?_, ?_, ?_, ?_⟩ <;>
                (intro h2; rw [h2] at hc; exact absurd hc (by decide))
          rw [printV, hct]
          rw [show (c :: t) ++ rest = c :: (t ++ rest) from rfl]
          rw [parseValue, skipWS_nonws c _ hnws]
          dsimp only
          rw [if_neg hd6.1, if_neg hd6.2.1, if_neg hd6.2.2.1, if_neg hd6.2.2.2.1,
            if_neg hd6.2.2.2.2.1, if_neg hd6.2.2.2.2.2, if_pos hc]
          rw [show c :: (t ++ rest) = (c :: t) ++ rest from rfl, ← hct]
          rw [scanNumber_replay lit.data hnum rest hstop]
      | str s =>
        rw [printV]
        rw [show quoteStr s ++ rest = '\"' :: (escBody s.data ++ '\"' :: rest) by
          rw [quoteStr]; simp]
        rw [parseValue, skipWS_nonws _ _ (by decide)]
        dsimp only
        rw [if_neg (by decide : ¬('\"' : Char) = 'n'),
          if_neg (by decide : ¬('\"' : Char) = 't'),
          if_neg (by decide : ¬('\"' : Char) = 'f'),
          if_pos (rfl : ('\"' : Char) = '\"')]
        rw [fuelV] at hf
        rw [parseStrChars_escBody s.data g rest (by omega)]
        exact rfl
      | arr es =>
        cases es with
        | nil =>
          rw [printV]
          exact rfl
        | cons e es2 =>
          have wfe : WF e := by
            cases wf with
            | arr _ h => exact h e (List.mem_cons_self _ _)
          have wfall : ∀ x ∈ e :: es2, WF x := by
            cases wf with
            | arr _ h => exact h
          rw [printV]
          rw [show ('[' :: '\n' :: pad (ind + 1) ++ printElems (ind + 1) e es2 ++
              '\n' :: pad ind ++ [']']) ++ rest =
            '[' :: ('\n' :: (pad (ind + 1) ++ (printElems (ind + 1) e es2 ++
              ('\n' :: (pad ind ++ (']' :: rest)))))) by simp]
          rw [parseValue, skipWS_nonws _ _ (by decide)]
          dsimp only
          rw [if_neg (by decide : ¬('[' : Char) = 'n'),
            if_neg (by decide : ¬('[' : Char) = 't'),
            if_neg (by decide : ¬('[' : Char) = 'f'),
            if_neg (by decide : ¬('[' : Char) = '\"'),
            if_pos (rfl : ('[' : Char) = '[')]
          rw [skipWS_nl, skipWS_pad]
          obtain ⟨c, t, hct, hnws, hnb, hnb2⟩ := printV_head (ind + 1) e wfe
          have hpe : ∃ t2, printElems (ind + 1) e es2 = c :: t2 := by
            cases es2 with
            | nil =>
              rw [printElems, hct]
              exact ⟨t, rfl⟩
            | cons e3 es3 =>
              rw [printElems, hct]
              exact ⟨_, rfl⟩
          obtain ⟨t2, hpe⟩ := hpe
          rw [hpe]
          rw [show (c :: t2) ++ ('\n' :: (pad ind ++ (']' :: rest))) =
            c :: (t2 ++ ('\n' :: (pad ind ++ (']' :: rest)))) from rfl]
          rw [skipWS_nonws c _ hnws]
          dsimp only
          rw [if_neg hnb]
          rw [show c :: (t2 ++ ('\n' :: (pad ind ++ (']' :: rest)))) =
            (c :: t2) ++ ('\n' :: (pad ind ++ (']' :: rest))) from rfl, ← hpe]
          rw [fuelV] at hf
          rw [ih.2.1 e es2 (by simp at hsize; omega) wfall (ind + 1) ind rest g (by omega) hstop]
      | obj fs =>
        cases fs with
        | nil =>
          rw [printV]
          exact rfl
        | cons kv fs2 =>
          have wfall : ∀ x ∈ kv :: fs2, WF x.2 := by
            cases wf with
            | obj _ _ h => exact h
          have hsorted : SortedKeys (kv :: fs2) := by
            cases wf with
            | obj _ h _ => exact h
          rw [printV]
          rw [show ('\x7b' :: '\n' :: pad (ind + 1) ++ printFields (ind + 1) kv fs2 ++
              '\n' :: pad ind ++ ['\x7d']) ++ rest =
            '\x7b' :: ('\n' :: (pad (ind + 1) ++ (printFields (ind + 1) kv fs2 ++
              ('\n' :: (pad ind ++ ('\x7d' :: rest)))))) by simp]
          rw [parseValue, skipWS_nonws _ _ (by decide)]
          dsimp only
          rw [if_neg (by decide : ¬('\x7b' : Char) = 'n'),
            if_neg (by decide : ¬('\x7b' : Char) = 't'),
            if_neg (by decide : ¬('\x7b' : Char) = 'f'),
            if_neg (by decide : ¬('\x7b' : Char) = '\"'),
            if_neg (by decide : ¬('\x7b' : Char) = '['),
            if_pos (rfl : ('\x7b' : Char) = '\x7b')]
          rw [skipWS_nl, skipWS_pad]
          have hpf : ∃ t2, printFields (ind + 1) kv fs2 = '\"' :: t2 := by
            cases fs2 with
            | nil =>
              rw [printFields, quoteStr]
              exact ⟨_, rfl⟩
            | cons f3 fs3 =>
              rw [printFields, quoteStr]
              exact ⟨_, rfl⟩
          obtain ⟨t2, hpf⟩ := hpf
          rw [hpf]
          rw [show ('\"' :: t2) ++ ('\n' :: (pad ind ++ ('\x7d' :: rest))) =
            '\"' :: (t2 ++ ('\n' :: (pad ind ++ ('\x7d' :: rest)))) from rfl]
          rw [skipWS_nonws _ _ (by decide)]
          dsimp only
          rw [if_neg (by decide : ¬('\"' : Char) = '\x7d')]
          rw [show '\"' :: (t2 ++ ('\n' :: (pad ind ++ ('\x7d' :: rest)))) =
            ('\"' :: t2) ++ ('\n' :: (pad ind ++ ('\x7d' :: rest))) from rfl, ← hpf]
          rw [fuelV] at hf
          rw [ih.2.2 kv fs2 (by simp at hsize; omega) wfall (ind + 1) ind rest g (by omega) hstop]
          dsimp only
          rw [normalizeFields_sorted_id _ hsorted]
    · intro e es hsize wf ind i0 rest f hf hstop
      obtain ⟨g, rfl⟩ : ∃ g, f = g + 1 := by
        refine ⟨f - 1, ?_⟩
        cases es <;> (rw [fuelL] at hf; omega)
      have wfe : WF e := wf e (List.mem_cons_self _ _)
      cases es with
      | nil =>
        rw [printElems]
        rw [parseElems]
        rw [fuelL] at hf
        rw [ih.1 e (by simp at hsize; omega) wfe ind ('\n' :: (pad i0 ++ ']' :: rest)) g
          (by omega) (Or.inr (Or.inl rfl))]
        dsimp only
        rw [skipWS_nl, skipWS_pad, skipWS_nonws _ _ (by decide)]
        exact rfl
      | cons e2 es2 =>
        have wfall : ∀ x ∈ e2 :: es2, WF x := by
          intro x hx
          exact wf x (List.mem_cons_of_mem _ hx)
        rw [printElems]
        rw [show (printV ind e ++ ',' :: '\n' :: pad ind ++ printElems ind e2 es2) ++
            ('\n' :: (pad i0 ++ ']' :: rest)) =
          printV ind e ++ (',' :: ('\n' :: (pad ind ++ (printElems ind e2 es2 ++
            ('\n' :: (pad i0 ++ ']' :: rest)))))) by simp]
        rw [parseElems]
        rw [fuelL] at hf
        rw [ih.1 e (by simp at hsize; omega) wfe ind _ g (by omega) (printedStop_comma _)]
        try simp only []
        rw [skipWS_nonws _ _ (by decide)]
        try simp only []
        rw [parseElems_congr_ws g _ (printElems ind e2 es2 ++
          ('\n' :: (pad i0 ++ ']' :: rest))) (by rw [skipWS_nl, skipWS_pad])]
        rw [ih.2.1 e2 es2 (by simp at hsize; omega) wfall ind i0 rest g (by omega) hstop]
        try exact rfl
    · intro kv fs hsize wf ind i0 rest f hf hstop
      obtain ⟨g, rfl⟩ : ∃ g, f = g + 1 := by
        refine ⟨f - 1, ?_⟩
        cases fs <;> (rw [fuelF] at hf; omega)
      obtain ⟨k, v⟩ := kv
      have wfv : WF v := wf (k, v) (List.mem_cons_self _ _)
      cases fs with
      | nil =>
        rw [printFields]
        rw [show (quoteStr k ++ ':' :: ' ' :: printV ind v) ++
            ('\n' :: (pad i0 ++ '\x7d' :: rest)) =
          '\"' :: (escBody k.data ++ '\"' :: (':' :: (' ' :: (printV ind v ++
            ('\n' :: (pad i0 ++ '\x7d' :: rest)))))) by rw [quoteStr]; simp]
        rw [parseFields, skipWS_nonws _ _ (by decide)]
        try simp only []
        rw [fuelF] at hf
        rw [parseStrChars_escBody k.data g _ (by simp at hf ⊢; omega)]
        try simp only []
        rw [skipWS_nonws _ _ (by decide)]
        try simp only []
        rw [parseValue_congr_ws g _ (printV ind v ++
          ('\n' :: (pad i0 ++ '\x7d' :: rest))) (skipWS_sp _)]
        rw [ih.1 v (by simp at hsize; omega) wfv ind _ g (by simp at hf; omega) (printedStop_nl _)]
        try simp only []
        rw [skipWS_nl, skipWS_pad, skipWS_nonws _ _ (by decide)]
        try simp only []
        try rw [stringMk_data]
        try exact rfl
      | cons f2 fs2 =>
        have wfall : ∀ x ∈ f2 :: fs2, WF x.2 := by
          intro x hx
          exact wf x (List.mem_cons_of_mem _ hx)
        rw [printFields]
        rw [show (quoteStr k ++ ':' :: ' ' :: printV ind v ++
            ',' :: '\n' :: pad ind ++ printFields ind f2 fs2) ++
            ('\n' :: (pad i0 ++ '\x7d' :: rest)) =
          '\"' :: (escBody k.data ++ '\"' :: (':' :: (' ' :: (printV ind v ++
            (',' :: ('\n' :: (pad ind ++ (printFields ind f2 fs2 ++
              ('\n' :: (pad i0 ++ '\x7d' :: rest)))))))))) by rw [quoteStr]; simp]
        rw [parseFields, skipWS_nonws _ _ (by decide)]
        try simp only []
        rw [fuelF] at hf
        rw [parseStrChars_escBody k.data g _ (by simp at hf ⊢; omega)]
        try simp only []
        rw [skipWS_nonws _ _ (by decide)]
        try simp only []
        rw [parseValue_congr_ws g _ (printV ind v ++ (',' :: ('\n' :: (pad ind ++
          (printFields ind f2 fs2 ++ ('\n' :: (pad i0 ++ '\x7d' :: rest)))))))
          (skipWS_sp _)]
        rw [ih.1 v (by simp at hsize; omega) wfv ind _ g (by simp at hf; omega) (printedStop_comma _)]
        try simp only []
        rw [skipWS_nonws _ _ (by decide)]
        try simp only []
        rw [parseFields_congr_ws g _ (printFields ind f2 fs2 ++
          ('\n' :: (pad i0 ++ '\x7d' :: rest))) (by rw [skipWS_nl, skipWS_pad])]
        rw [ih.2.2 f2 fs2 (by simp at hsize; omega) wfall ind i0 rest g (by simp at hf; omega) hstop]
        try simp only []
        try rw [stringMk_data]
        try exact rfl

/-- Round trip for one well formed value: parsing its printed form before a
printed stop recovers it. -/
theorem rtV (v : JsonValue) (wf : WF v) (ind : Nat) (rest : List Char)
    (f : Nat) (hf : fuelV v ≤ f) (hstop : printedStop rest) :
    parseValue f (printV ind v ++ rest) = some (v, rest) :=
  (rtAll (sizeOf v)).1 v (le_refl _) wf ind rest f hf hstop


/-- Every value the parser produces is well formed, at every fuel: number
literals satisfy the scanned grammar and object member lists are the sorted
output of normalizeFields. -/
theorem parseWF : ∀ f : Nat,
    (∀ cs v r, parseValue f cs = some (v, r) → WF v) ∧
    (∀ cs vs r, parseElems f cs = some (vs, r) → ∀ x ∈ vs, WF x) ∧
    (∀ cs fs r, parseFields f cs = some (fs, r) → ∀ x ∈ fs, WF x.2) := by
  intro f
  induction f with
  | zero =>
    refine ⟨?_, ?_, ?_⟩
    · intro cs v r h
      exact Option.noConfusion h
    · intro cs vs r h
      exact Option.noConfusion h
    · intro cs fs r h
      exact Option.noConfusion h
  | succ f ih =>
    refine ⟨?_, ?_, ?_⟩
    · intro cs v r h
      rw [parseValue.eq_def] at h
      dsimp only at h
      cases hw : skipWS cs with
      | nil =>
        rw [hw] at h
        exact Option.noConfusion h
      | cons c r0 =>
        rw [hw] at h
        dsimp only at h
        split at h
        · split at h
          · simp only [Option.some.injEq, Prod.mk.injEq] at h
            exact h.1 ▸ WF.null
          · exact Option.noConfusion h
        · split at h
          · split at h
            · simp only [Option.some.injEq, Prod.mk.injEq] at h
              exact h.1 ▸ WF.bool true
            · exact Option.noConfusion h
          · split at h
            · split at h
              · simp only [Option.some.injEq, Prod.mk.injEq] at h
                exact h.1 ▸ WF.bool false
              · exact Option.noConfusion h
            · split at h
              · cases hps : parseStrChars f r0 with
                | none =>
                  rw [hps] at h
                  exact Option.noConfusion h
                | some p =>
                  rw [hps] at h
                  simp only [Option.map, Option.some.injEq, Prod.mk.injEq] at h
                  exact h.1 ▸ WF.str _
              · split at h
                · cases hw2 : skipWS r0 with
                  | nil =>
                    rw [hw2] at h
                    exact Option.noConfusion h
                  | cons d r2 =>
                    rw [hw2] at h
                    dsimp only at h
                    split at h
                    · simp only [Option.some.injEq, Prod.mk.injEq] at h
                      refine h.1 ▸ WF.arr [] ?_
                      intro e he
                      cases he
                    · cases hpe : parseElems f (d :: r2) with
                      | none =>
                        rw [hpe] at h
                        exact Option.noConfusion h
                      | some q =>
                        obtain ⟨vs, r3⟩ := q
                        rw [hpe] at h
                        simp only [Option.some.injEq, Prod.mk.injEq] at h
                        exact h.1 ▸ WF.arr vs (ih.2.1 _ vs r3 hpe)
                · split at h
                  · cases hw2 : skipWS r0 with
                    | nil =>
                      rw [hw2] at h
                      exact Option.noConfusion h
                    | cons d r2 =>
                      rw [hw2] at h
                      dsimp only at h
                      split at h
                      · simp only [Option.some.injEq, Prod.mk.injEq] at h
                        refine h.1 ▸ WF.obj [] ?_ ?_
                        · simp [SortedKeys]
                        · intro kv hkv
                          cases hkv
                      · cases hpf : parseFields f (d :: r2) with
                        | none =>
                          rw [hpf] at h
                          exact Option.noConfusion h
                        | some q =>
                          obtain ⟨fs0, r3⟩ := q
                          rw [hpf] at h
                          simp only [Option.some.injEq, Prod.mk.injEq] at h
                          refine h.1 ▸ WF.obj (normalizeFields fs0)
                            (normalizeFields_sorted fs0) ?_
                          intro kv hkv
                          exact ih.2.2 _ fs0 r3 hpf kv
                            (normalizeFields_mem fs0 kv hkv)
                  · split at h
                    · cases hsn : scanNumber (c :: r0) with
                      | none =>
                        rw [hsn] at h
                        exact Option.noConfusion h
                      | some q =>
                        obtain ⟨t, r2⟩ := q
                        rw [hsn] at h
                        simp only [Option.some.injEq, Prod.mk.injEq] at h
                        exact h.1 ▸ WF.num (String.mk t)
                          (scanNumber_numTok _ t r2 hsn)
                    · exact Option.noConfusion h
    · intro cs vs r h
      rw [parseElems.eq_def] at h
      dsimp only at h
      cases hpv : parseValue f cs with
      | none =>
        rw [hpv] at h
        exact Option.noConfusion h
      | some p =>
        obtain ⟨v, rest⟩ := p
        rw [hpv] at h
        dsimp only at h
        have hv : WF v := ih.1 cs v rest hpv
        split at h
        · rename_i r1 heq
          cases hpe : parseElems f r1 with
          | none =>
            rw [hpe] at h
            exact Option.noConfusion h
          | some q =>
            obtain ⟨vs2, r2⟩ := q
            rw [hpe] at h
            simp only [Option.some.injEq, Prod.mk.injEq] at h
            intro x hx
            rw [← h.1] at hx
            rcases List.mem_cons.mp hx with rfl | hx2
            · exact hv
            · exact ih.2.1 r1 vs2 r2 hpe x hx2
        · simp only [Option.some.injEq, Prod.mk.injEq] at h
          intro x hx
          rw [← h.1] at hx
          rcases List.mem_cons.mp hx with rfl | hx2
          · exact hv
          · cases hx2
        · exact Option.noConfusion h
    · intro cs fs r h
      rw [parseFields.eq_def] at h
      dsimp only at h
      split at h
      · rename_i rest heq
        cases hk : parseStrChars f rest with
        | none =>
          rw [hk] at h
          exact Option.noConfusion h
        | some p =>
          obtain ⟨k, r1⟩ := p
          rw [hk] at h
          dsimp only at h
          split at h
          · rename_i r2 heq2
            cases hpv : parseValue f r2 with
            | none =>
              rw [hpv] at h
              exact Option.noConfusion h
            | some q =>
              obtain ⟨v, r3⟩ := q
              rw [hpv] at h
              dsimp only at h
              have hv : WF v := ih.1 r2 v r3 hpv
              split at h
              · rename_i r4 heq3
                cases hpf : parseFields f r4 with
                | none =>
                  rw [hpf] at h
                  exact Option.noConfusion h
                | some q2 =>
                  obtain ⟨fs2, r5⟩ := q2
                  rw [hpf] at h
                  simp only [Option.some.injEq, Prod.mk.injEq] at h
                  intro x hx
                  rw [← h.1] at hx
                  rcases List.mem_cons.mp hx with rfl | hx2
                  · exact hv
                  · exact ih.2.2 r4 fs2 r5 hpf x hx2
              · simp only [Option.some.injEq, Prod.mk.injEq] at h
                intro x hx
                rw [← h.1] at hx
                rcases List.mem_cons.mp hx with rfl | hx2
                · exact hv
                · cases hx2
              · exact Option.noConfusion h
          · exact Option.noConfusion h
      · exact Option.noConfusion h

/-- A successfully decoded whole input denotes a well formed value. -/
theorem jsonParse_WF (s : String) (v : JsonValue) (h : jsonParse s = some v) :
    WF v := by
  rw [jsonParse] at h
  cases hp : parseValue (s.data.length * 4 + 8) s.data with
  | none =>
    rw [hp] at h
    exact Option.noConfusion h
  | some p =>
    obtain ⟨v2, rest⟩ := p
    rw [hp] at h
    dsimp only at h
    split at h
    · simp only [Option.some.injEq] at h
      exact h ▸ (parseWF _).1 s.data v2 rest hp
    · exact Option.noConfusion h

/-- The budget a well formed value needs is within a factor four of its
printed length, so the top level fuel jsonParse allots always suffices. -/
theorem fuelBound : ∀ n : Nat,
    (∀ v : JsonValue, sizeOf v ≤ n → WF v → ∀ ind : Nat,
      fuelV v + 1 ≤ 4 * (printV ind v).length) ∧
    (∀ (e : JsonValue) (es : List JsonValue), 1 + sizeOf e + sizeOf es ≤ n →
      (∀ x ∈ e :: es, WF x) → ∀ ind : Nat,
      fuelL e es ≤ 4 * (printElems ind e es).length) ∧
    (∀ (kv : String × JsonValue) (fs : List (String × JsonValue)),
      1 + sizeOf kv + sizeOf fs ≤ n → (∀ x ∈ kv :: fs, WF x.2) → ∀ ind : Nat,
      fuelF kv fs ≤ 4 * (printFields ind kv fs).length) := by
  intro n
  induction n with
  | zero =>
    refine ⟨?_, ?_, ?_⟩
    · intro v hsize
      exact absurd hsize (by have := jsonValue_sizeOf_pos v; omega)
    · intro e es hsize
      exact absurd hsize (by omega)
    · intro kv fs hsize
      exact absurd hsize (by omega)
  | succ n ih =>
    refine ⟨?_, ?_, ?_⟩
    · intro v hsize wf ind
      cases v with
      | null =>
        rw [fuelV, printV]
        simp
      | bool b =>
        cases b <;> (rw [fuelV, printV]; simp)
      | num lit =>
        cases wf with
        | num _ hnum =>
          obtain ⟨c, t, hct, -⟩ := numTok_head _ hnum
          rw [fuelV, printV, hct]
          simp
          omega
      | str s =>
        have hesc := escBody_length s.data
        rw [fuelV, printV]
        simp only [quoteStr, List.length_cons, List.length_append,
          List.length_cons, List.length_nil]
        omega
      | arr es =>
        cases es with
        | nil =>
          rw [fuelV, printV]
          simp
        | cons e es2 =>
          cases wf with
          | arr _ hmem =>
            have hL := ih.2.1 e es2 (by simp at hsize; omega) hmem (ind + 1)
            rw [fuelV, printV]
            simp only [List.length_cons, List.length_append, List.length_nil]
            omega
      | obj fs =>
        cases fs with
        | nil =>
          rw [fuelV, printV]
          simp
        | cons kv fs2 =>
          cases wf with
          | obj _ _ hmem =>
            have hF := ih.2.2 kv fs2 (by simp at hsize; omega) hmem (ind + 1)
            rw [fuelV, printV]
            simp only [List.length_cons, List.length_append, List.length_nil]
            omega
    · intro e es hsize wfall ind
      cases es with
      | nil =>
        have hV := ih.1 e (by simp at hsize; omega)
          (wfall e (List.mem_cons_self _ _)) ind
        rw [fuelL, printElems]
        omega
      | cons e2 es2 =>
        have hV := ih.1 e (by simp at hsize; omega)
          (wfall e (List.mem_cons_self _ _)) ind
        have hL2 := ih.2.1 e2 es2 (by simp at hsize; omega)
          (fun x hx => wfall x (List.mem_cons_of_mem _ hx)) ind
        rw [fuelL, printElems]
        simp only [List.length_append, List.length_cons]
        omega
    · intro kv fs hsize wfall ind
      obtain ⟨k, v⟩ := kv
      have hesc := escBody_length k.data
      have hV := ih.1 v (by simp at hsize; omega)
        (wfall (k, v) (List.mem_cons_self _ _)) ind
      cases fs with
      | nil =>
        rw [fuelF, printFields]
        simp only [quoteStr, List.length_append, List.length_cons,
          List.length_nil]
        omega
      | cons f2 fs2 =>
        have hF2 := ih.2.2 f2 fs2 (by simp at hsize; omega)
          (fun x hx => wfall x (List.mem_cons_of_mem _ hx)) ind
        rw [fuelF, printFields]
        simp only [quoteStr, List.length_append, List.length_cons,
          List.length_nil]
        omega

/-- Re-decoding the MarshalIndent output of a well formed value yields the
value back: the encoder and decoder are inverse on decoder images. -/
theorem jsonParse_marshalIndent (v : JsonValue) (wf : WF v) :
    jsonParse (marshalIndent v) = some v := by
  have hfuel : fuelV v ≤ (printV 0 v).length * 4 + 8 := by
    have h := (fuelBound (sizeOf v)).1 v (le_refl _) wf 0
    omega
  have hr := rtV v wf 0 [] ((printV 0 v).length * 4 + 8) hfuel trivial
  rw [List.append_nil] at hr
  rw [jsonParse]
  show (match parseValue ((printV 0 v).length * 4 + 8) (printV 0 v) with
    | some (w, rest) => if skipWS rest = [] then some w else none
    | none => none) = some v
  rw [hr]
  simp [skipWS]

/-- C5: for every input string that parses as valid JSON, the formatted
output itself parses as JSON and denotes the same JSON value as the input:
round-trip equivalence up to whitespace and formatting. -/
theorem claim5_format_round_trip (s : String) (v : JsonValue)
    (h : jsonParse s = some v) :
    jsonParse (prettyPrintJSON s) = some v := by
  rw [prettyPrintJSON, h]
  exact jsonParse_marshalIndent v (jsonParse_WF s v h)

/-- A concrete round trip: formatting a parsed array re-parses to the same
value. -/
theorem claim5_witness :
    jsonParse "[1, true]" = some (JsonValue.arr
      [JsonValue.num (String.mk ['1']), JsonValue.bool true]) ∧
    jsonParse (prettyPrintJSON "[1, true]") = some (JsonValue.arr
      [JsonValue.num (String.mk ['1']), JsonValue.bool true]) :=
  ⟨rfl, claim5_format_round_trip "[1, true]" (JsonValue.arr
    [JsonValue.num (String.mk ['1']), JsonValue.bool true]) rfl⟩

/-- C10: the formatter is idempotent on every input string, valid JSON or
not: formatting its own output changes nothing. -/
theorem claim10_format_idempotent (s : String) :
    prettyPrintJSON (prettyPrintJSON s) = prettyPrintJSON s := by
  cases h : jsonParse s with
  | none =>
    have h2 : prettyPrintJSON s = s := by rw [prettyPrintJSON, h]
    rw [h2]
    exact h2
  | some v =>
    have h2 : prettyPrintJSON s = marshalIndent v := by rw [prettyPrintJSON, h]
    rw [h2, prettyPrintJSON, jsonParse_marshalIndent v (jsonParse_WF s v h)]

end RediScan
